import Mathlib

/-!
Verification of the generic best-first search kernel (`src/common/path_finder`)
and its constrained-step grid instantiation (`src/days/day17`) of the
advent2023_rust repository.

The Rust code is shallowly embedded: machine integers (`usize`, `u32`) become
`Nat` (the quantities involved — grid indices, digit weights, accumulated
losses — are far below any wrap-around in every reachable configuration, and
all claims are about order and additivity, not about wrapping), the
`BinaryHeap` frontier becomes a list together with an extract-max operation
`popMax` over the translated `Ord` comparison, the `HashSet` of fingerprints
becomes a duplicate-free list with membership, and the unbounded `while let`
loop of `find_best_path` becomes a fuel-indexed recursion whose
`SearchResult.outOfFuel` value is proved unreachable for sufficient fuel
(termination, claim C8).

The non-debug build is modelled: the `HeatDebugger` member of `HeatFlow` is a
fieldless unit struct whose operations are no-ops, so it is omitted from the
embedded `HeatFlow` record (it carries no data and takes part in neither the
ordering, the fingerprint, nor the search logic).
-/

namespace Advent2023

/-! ## Geometry: `src/common/direction.rs` and `src/common/pos2.rs` -/

/-- The `Direction` from `src/common/direction.rs`. -/
inductive Direction : Type
  | East
  | North
  | West
  | South
deriving DecidableEq

/-- The `Direction::iter` from `src/common/direction.rs`: the four compass
directions in the order East, North, West, South. -/
def Direction.iter : List Direction :=
  [Direction.East, Direction.North, Direction.West, Direction.South]

/-- The `Direction::turn_back` from `src/common/direction.rs`. -/
def Direction.turn_back : Direction → Direction
  | .East => .West
  | .North => .South
  | .West => .East
  | .South => .North

/-- The `Pos2<usize>` from `src/common/pos2.rs` (the instantiation used by day
17): a pair of non-negative coordinates. -/
structure Pos2 : Type where
  x : Nat
  y : Nat
deriving DecidableEq

/-- The `Pos2::new`. -/
def Pos2.new (x y : Nat) : Pos2 := ⟨x, y⟩

/-- The `Pos2::abs` from `src/common/pos2.rs`: `self.x.abs() + self.y.abs()`.
For `usize` the `Abs` trait of `src/common/abs.rs` is the identity, so this
is the taxicab value `x + y`. -/
def Pos2.abs (p : Pos2) : Nat := p.x + p.y

/-- Modelled from the spec: the grid navigation primitive
`Pos2::safe_matrix_add_and_get` is called by `HeatMap::get_next_states`
(`src/days/day17/mod.rs`) but its definition is not among the provided
sources.  Per the spec (§2 item 1 and §6, `try_step`), it moves one step in a
compass direction inside a rectangular matrix, "returning either the new
position (and optionally the cell value) or nothing if the move exits the
matrix", and "must never panic on out-of-range input".  For `Pos2<usize>`
a step North from `y = 0` or West from `x = 0` leaves the matrix, as does a
step past the last row or past the end of a row. -/
def safe_matrix_add_and_get (p : Pos2) (m : List (List Nat)) (d : Direction) :
    Option (Pos2 × Nat) :=
  let next : Option Pos2 :=
    match d with
    | .East => some ⟨p.x + 1, p.y⟩
    | .South => some ⟨p.x, p.y + 1⟩
    | .West => if p.x = 0 then none else some ⟨p.x - 1, p.y⟩
    | .North => if p.y = 0 then none else some ⟨p.x, p.y - 1⟩
  match next with
  | none => none
  | some q =>
    match m[q.y]? with
    | none => none
    | some row =>
      match row[q.x]? with
      | none => none
      | some v => some (q, v)

/-! ## The search kernel: `src/common/path_finder/mod.rs` -/

/-- The `PathFinder` trait of `src/common/path_finder/mod.rs`, with the
associated `Queue` and `Skipper` types supplied separately (as the comparison
used by the frontier and the skipper transition function). -/
structure PathFinderSpec (Item : Type) : Type where
  get_start_item : Item
  is_finished : Item → Bool
  get_next_states : Item → List Item

/-- Extract-max of `BinaryHeap::pop` (`src/common/path_finder/path_queue.rs`):
from a non-empty collection, remove and return an element that is maximal for
the comparison `cmp` (Rust's `BinaryHeap` is a max-heap over `Ord`). -/
def popMax {α : Type} (cmp : α → α → Ordering) : List α → Option (α × List α)
  | [] => none
  | a :: rest =>
    match popMax cmp rest with
    | none => some (a, [])
    | some (b, rest') =>
      if cmp a b = Ordering.lt then some (b, a :: rest') else some (a, rest)

/-- One outcome of running the kernel loop with a given amount of fuel.
`outOfFuel` has no counterpart in the source (whose loop is unbounded); claim
C8 shows it is avoided by a computable amount of fuel. -/
inductive SearchResult (α : Type) : Type
  | found (x : α)
  | exhausted
  | outOfFuel
deriving DecidableEq

/-- The loop of `find_best_path` (`src/common/path_finder/mod.rs`), generic
over the problem `P`, the frontier ordering `cmp` and the skipper transition
`skip` (a state-passing rendering of `Skipper::skip_item(&mut self, ..)`):
pop the best pending item; if the frontier is empty, exhaustion; if the item
is a goal, return it at once; otherwise consult the skipper exactly once and
either drop the item or push all of its successors. -/
def find_best_path_loop {Item S : Type} (P : PathFinderSpec Item)
    (cmp : Item → Item → Ordering) (skip : S → Item → Bool × S) :
    Nat → List Item → S → SearchResult Item
  | 0, _, _ => SearchResult.outOfFuel
  | fuel + 1, queue, s =>
    match popMax cmp queue with
    | none => SearchResult.exhausted
    | some (item, rest) =>
      if P.is_finished item then SearchResult.found item
      else
        match skip s item with
        | (true, s') => find_best_path_loop P cmp skip fuel rest s'
        | (false, s') =>
          find_best_path_loop P cmp skip fuel
            ((P.get_next_states item).foldl (fun q n => n :: q) rest) s'

/-- The `find_best_path` (`src/common/path_finder/mod.rs`): initialize the
skipper and the frontier, push the start item, and run the loop. -/
def find_best_path {Item S : Type} (P : PathFinderSpec Item)
    (cmp : Item → Item → Ordering) (skipInit : S) (skip : S → Item → Bool × S)
    (fuel : Nat) : SearchResult Item :=
  find_best_path_loop P cmp skip fuel [P.get_start_item] skipInit

/-! ## The skippers: `src/common/path_finder/item_skipper.rs` -/

/-- The `FingerprintSkipper::skip_item`: `!self.fingerprints.insert(fp)` — report
whether the fingerprint was already present and insert it as a side effect.
The `HashSet` is modelled as the list of previously inserted fingerprints. -/
def fingerprintSkipItem {Item FP : Type} [DecidableEq FP] (fp : Item → FP)
    (s : List FP) (item : Item) : Bool × List FP :=
  if fp item ∈ s then (true, s) else (false, fp item :: s)

/-- The `NoneSkipper::skip_item`: never skip, no state. -/
def noneSkipItem {Item : Type} (s : Unit) (_item : Item) : Bool × Unit :=
  (false, s)

/-! ## Day 17: `src/days/day17/mod.rs` -/

/-- The `HeatChecker`. -/
structure HeatChecker : Type where
  min_steps : Nat
  max_steps : Nat
deriving DecidableEq

/-- The `HeatChecker::new`: `assert!(max_steps >= min_steps)` then build.  The
assertion failure (a panic) is rendered as `none`. -/
def HeatChecker.new (min_steps max_steps : Nat) : Option HeatChecker :=
  if max_steps ≥ min_steps then some ⟨min_steps, max_steps⟩ else none

/-- The `HeatChecker::check`: `(self.min_steps..=self.max_steps).contains(&straight)`. -/
def HeatChecker.check (c : HeatChecker) (straight : Nat) : Bool :=
  decide (c.min_steps ≤ straight ∧ straight ≤ c.max_steps)

/-- The `HeatFlow` (without the data-free `HeatDebugger` of the non-debug build). -/
structure HeatFlow : Type where
  loss : Nat
  straight : Nat
  pos : Pos2
  direction : Option Direction
deriving DecidableEq

/-- The `impl Ord for HeatFlow`: compare losses reversed (so that the max-heap
pops the smallest loss first), then tie-break on `pos.abs()`. -/
def heatCmp (a b : HeatFlow) : Ordering :=
  match compare b.loss a.loss with
  | Ordering.eq => compare a.pos.abs b.pos.abs
  | ord => ord

/-- The `impl FingerprintItem for HeatFlow`: the reduced key
`(pos, direction, straight)`. -/
def HeatFlow.get_fingerprint (i : HeatFlow) : Pos2 × Option Direction × Nat :=
  (i.pos, i.direction, i.straight)

/-- The `HeatMap`. -/
structure HeatMap : Type where
  map : List (List Nat)
  checker : HeatChecker

/-- The `HeatMap::get_start_item`: loss 0, straight 0, position `(0, 0)`, no
direction. -/
def HeatMap.get_start_item (_m : HeatMap) : HeatFlow :=
  { loss := 0, straight := 0, pos := ⟨0, 0⟩, direction := none }

/-- The `HeatMap::is_finished`: the position equals the bottom-right corner
`(map[0].len() - 1, map.len() - 1)` (the debugger call of the source is a
no-op in the non-debug build). -/
def HeatMap.is_finished (m : HeatMap) (item : HeatFlow) : Bool :=
  decide (item.pos.x = (m.map.getD 0 []).length - 1 ∧
    item.pos.y = m.map.length - 1)

/-- The `for _ in 0..steps` loop in the body of `get_next_states`: walk
`steps` cells in direction `d`, threading position, accumulated loss and
straight counter, failing if any intermediate step leaves the grid. -/
def walkLoop (m : List (List Nat)) (d : Direction) :
    Nat → Pos2 → Nat → Nat → Option (Pos2 × Nat × Nat)
  | 0, pos, loss, straight => some (pos, loss, straight)
  | steps + 1, pos, loss, straight =>
    match safe_matrix_add_and_get pos m d with
    | none => none
    | some (next_pos, next_loss) =>
      walkLoop m d steps next_pos (loss + next_loss) (straight + 1)

/-- The body of the closure in `HeatMap::get_next_states` for one candidate
direction: reject a reversal; a move in the previous direction is one step
keeping the straight counter, any other move (including the very first) is a
compound `min_steps`-cell move with the straight counter reset; finally the
straight counter must pass `HeatChecker::check`. -/
def HeatMap.nextState (m : HeatMap) (item : HeatFlow) (direction : Direction) :
    Option HeatFlow :=
  let startState : Option (Nat × Nat) :=
    match item.direction with
    | some prev =>
      if direction = prev.turn_back then none
      else if direction = prev then some (item.straight, 1)
      else some (0, m.checker.min_steps)
    | none => some (item.straight, m.checker.min_steps)
  match startState with
  | none => none
  | some (straight0, steps) =>
    match walkLoop m.map direction steps item.pos item.loss straight0 with
    | none => none
    | some (pos, loss, straight) =>
      if m.checker.check straight then
        some { loss := loss, straight := straight, pos := pos,
               direction := some direction }
      else none

/-- The `HeatMap::get_next_states`: the candidate successors over the four
compass directions. -/
def HeatMap.get_next_states (m : HeatMap) (item : HeatFlow) : List HeatFlow :=
  Direction.iter.filterMap (m.nextState item)

/-- The `PathFinder` instance of `HeatMap`. -/
def HeatMap.pathFinderSpec (m : HeatMap) : PathFinderSpec HeatFlow :=
  { get_start_item := m.get_start_item
    is_finished := m.is_finished
    get_next_states := m.get_next_states }

/-- The `find_best_path(heat_map)` with the declared `Queue = BinaryHeap` and
`Skipper = FingerprintSkipper` associated types. -/
def HeatMap.find_best_path (m : HeatMap) (fuel : Nat) : SearchResult HeatFlow :=
  Advent2023.find_best_path m.pathFinderSpec heatCmp
    ([] : List (Pos2 × Option Direction × Nat))
    (fingerprintSkipItem HeatFlow.get_fingerprint) fuel

/-- The same search with `NoneSkipper` substituted for the fingerprint
skipper, everything else identical (for claim C2). -/
def HeatMap.find_best_path_none (m : HeatMap) (fuel : Nat) : SearchResult HeatFlow :=
  Advent2023.find_best_path m.pathFinderSpec heatCmp () noneSkipItem fuel

/-- The error type of day 17 (`DayError` in `src/days/day17/mod.rs`),
restricted to the variants relevant here. -/
inductive DayError : Type
  | noAsciiNumber (c : Char)
  | headMapMustNotBeEmpty
  | heatMapMustBeRectangle
  | noBestPathFound
deriving DecidableEq

/-- The `HeatMap::best_path`: `find_best_path(self).map(|hf| hf.loss)
.ok_or(DayError::NoBestPathFound)`.  The outer `Option` is `none` exactly
when the fuelled loop ran out of fuel (no source counterpart). -/
def HeatMap.best_path (m : HeatMap) (fuel : Nat) : Option (Except DayError Nat) :=
  match m.find_best_path fuel with
  | SearchResult.found x => some (Except.ok x.loss)
  | SearchResult.exhausted => some (Except.error DayError.noBestPathFound)
  | SearchResult.outOfFuel => none

/-! ## Lemmas about `popMax` (the model of `BinaryHeap::pop`) -/

theorem popMax_eq_none_iff {α : Type} (cmp : α → α → Ordering) (l : List α) :
    popMax cmp l = none ↔ l = [] := by
  cases l with
  | nil => simp [popMax]
  | cons a rest =>
    simp only [popMax]
    cases h : popMax cmp rest with
    | none => simp
    | some br =>
      obtain ⟨b, rest'⟩ := br
      by_cases hlt : cmp a b = Ordering.lt <;> simp [hlt]

theorem popMax_perm {α : Type} (cmp : α → α → Ordering) :
    ∀ {l : List α} {x : α} {rest : List α},
      popMax cmp l = some (x, rest) → l.Perm (x :: rest)
  | [], x, rest => by simp [popMax]
  | a :: l, x, rest => by
    simp only [popMax]
    cases h : popMax cmp l with
    | none =>
      rw [popMax_eq_none_iff] at h
      subst h
      intro he
      simp only [Option.some.injEq, Prod.mk.injEq] at he
      rw [he.1, he.2]
    | some br =>
      obtain ⟨b, rest'⟩ := br
      have hperm : l.Perm (b :: rest') := popMax_perm cmp h
      by_cases hlt : cmp a b = Ordering.lt
      · simp only [hlt, if_pos]
        intro he
        simp only [Option.some.injEq, Prod.mk.injEq] at he
        rw [← he.1, ← he.2]
        exact (hperm.cons a).trans (List.Perm.swap b a rest')
      · simp only [hlt, if_neg, not_false_iff]
        intro he
        simp only [Option.some.injEq, Prod.mk.injEq] at he
        rw [← he.1, ← he.2]

theorem popMax_mem {α : Type} (cmp : α → α → Ordering) {l : List α} {x : α}
    {rest : List α} (h : popMax cmp l = some (x, rest)) : x ∈ l :=
  (popMax_perm cmp h).mem_iff.mpr (List.mem_cons_self x rest)

theorem popMax_isMax {α : Type} (cmp : α → α → Ordering)
    (hrefl : ∀ a : α, cmp a a ≠ Ordering.lt)
    (hasymm : ∀ a b : α, cmp a b = Ordering.lt → cmp b a ≠ Ordering.lt)
    (htrans : ∀ a b c : α,
      cmp a b ≠ Ordering.lt → cmp b c ≠ Ordering.lt → cmp a c ≠ Ordering.lt) :
    ∀ {l : List α} {x : α} {rest : List α},
      popMax cmp l = some (x, rest) → ∀ y ∈ l, cmp x y ≠ Ordering.lt
  | [], x, rest => by simp [popMax]
  | a :: l, x, rest => by
    simp only [popMax]
    cases h : popMax cmp l with
    | none =>
      rw [popMax_eq_none_iff] at h
      subst h
      intro he
      simp only [Option.some.injEq, Prod.mk.injEq] at he
      intro y hy
      rw [List.mem_singleton] at hy
      rw [he.1.symm, hy]
      exact hrefl a
    | some br =>
      obtain ⟨b, rest'⟩ := br
      have hmax : ∀ y ∈ l, cmp b y ≠ Ordering.lt :=
        popMax_isMax cmp hrefl hasymm htrans h
      by_cases hlt : cmp a b = Ordering.lt
      · simp only [hlt, if_pos]
        intro he
        simp only [Option.some.injEq, Prod.mk.injEq] at he
        intro y hy
        rw [← he.1]
        rcases List.mem_cons.mp hy with hy | hy
        · rw [hy]; exact hasymm a b hlt
        · exact hmax y hy
      · simp only [hlt, if_neg, not_false_iff]
        intro he
        simp only [Option.some.injEq, Prod.mk.injEq] at he
        intro y hy
        rw [← he.1]
        rcases List.mem_cons.mp hy with hy | hy
        · rw [hy]; exact hrefl a
        · exact htrans a b y hlt (hmax y hy)

/-! ## Properties of the `HeatFlow` ordering -/

/-- The `heatCmp a b ≠ lt` (that is, `a` is not below `b` in the max-heap) holds
exactly when `a` has a smaller loss, or an equal loss and at least as large a
taxicab value. -/
theorem heatCmp_ne_lt_iff (a b : HeatFlow) :
    heatCmp a b ≠ Ordering.lt ↔
      a.loss < b.loss ∨ (a.loss = b.loss ∧ b.pos.abs ≤ a.pos.abs) := by
  unfold heatCmp
  rcases Nat.lt_trichotomy b.loss a.loss with h | h | h
  · rw [Nat.compare_eq_lt.mpr h]
    simp only [ne_eq, not_true_eq_false, false_iff]
    push_neg
    constructor
    · omega
    · intro he; omega
  · rw [Nat.compare_eq_eq.mpr h]
    constructor
    · intro hne
      right
      refine ⟨h.symm, ?_⟩
      by_contra hab
      exact hne (Nat.compare_eq_lt.mpr (by omega))
    · intro hor
      rcases hor with hl | ⟨_, hab⟩
      · omega
      · intro hc
        rw [Nat.compare_eq_lt] at hc
        omega
  · rw [Nat.compare_eq_gt.mpr h]
    simp only [ne_eq, reduceCtorEq, not_false_iff, true_iff]
    left; exact h

theorem heatCmp_refl (a : HeatFlow) : heatCmp a a ≠ Ordering.lt := by
  rw [heatCmp_ne_lt_iff]; right; exact ⟨rfl, le_refl _⟩

theorem heatCmp_lt_iff (a b : HeatFlow) :
    heatCmp a b = Ordering.lt ↔
      b.loss < a.loss ∨ (a.loss = b.loss ∧ a.pos.abs < b.pos.abs) := by
  have h := heatCmp_ne_lt_iff a b
  by_cases hc : heatCmp a b = Ordering.lt
  · simp only [hc, true_iff]
    simp only [ne_eq, hc, not_true_eq_false, false_iff] at h
    push_neg at h
    omega
  · simp only [hc, false_iff]
    have := h.mp hc
    push_neg
    omega

theorem heatCmp_asymm (a b : HeatFlow) (h : heatCmp a b = Ordering.lt) :
    heatCmp b a ≠ Ordering.lt := by
  rw [heatCmp_lt_iff] at h
  rw [heatCmp_ne_lt_iff]
  omega

theorem heatCmp_trans (a b c : HeatFlow) (hab : heatCmp a b ≠ Ordering.lt)
    (hbc : heatCmp b c ≠ Ordering.lt) : heatCmp a c ≠ Ordering.lt := by
  rw [heatCmp_ne_lt_iff] at hab hbc ⊢
  omega

/-- Popping the `BinaryHeap` of `HeatFlow` states yields an item whose loss
is minimal among the pending items. -/
theorem popMax_heatCmp_loss_min {l : List HeatFlow} {x : HeatFlow}
    {rest : List HeatFlow} (h : popMax heatCmp l = some (x, rest)) :
    ∀ y ∈ l, x.loss ≤ y.loss := by
  intro y hy
  have := popMax_isMax heatCmp heatCmp_refl heatCmp_asymm heatCmp_trans h y hy
  rw [heatCmp_ne_lt_iff] at this
  omega

/-! ## List helpers for the kernel loop -/

theorem mem_foldl_cons {α : Type} (l : List α) (acc : List α) (a : α) :
    a ∈ l.foldl (fun q n => n :: q) acc ↔ a ∈ l ∨ a ∈ acc := by
  induction l generalizing acc with
  | nil => simp
  | cons x xs ih =>
    simp only [List.foldl_cons, ih (x :: acc), List.mem_cons]
    tauto

theorem length_foldl_cons {α : Type} (l : List α) (acc : List α) :
    (l.foldl (fun q n => n :: q) acc).length = l.length + acc.length := by
  induction l generalizing acc with
  | nil => simp
  | cons x xs ih =>
    simp only [List.foldl_cons, ih (x :: acc), List.length_cons]
    omega

/-! ## Reachability in a search problem -/

section Kernel

variable {Item FP : Type} [DecidableEq FP]

/-- The states reachable from the start state by iterated successor
generation. -/
inductive ReachP (P : PathFinderSpec Item) : Item → Prop
  | start : ReachP P P.get_start_item
  | step {i j : Item} : ReachP P i → j ∈ P.get_next_states i → ReachP P j

/-- The `ChainFrom P z w n`: a path of `n` successor-generation steps from `z`
to `w`. -/
inductive ChainFrom (P : PathFinderSpec Item) : Item → Item → Nat → Prop
  | refl (i : Item) : ChainFrom P i i 0
  | cons {i j k : Item} {n : Nat} : j ∈ P.get_next_states i →
      ChainFrom P j k n → ChainFrom P i k (n + 1)

theorem ChainFrom.snoc {P : PathFinderSpec Item} :
    ∀ {a b c : Item} {n : Nat}, ChainFrom P a b n →
      c ∈ P.get_next_states b → ChainFrom P a c (n + 1) := by
  intro a b c n h
  induction h with
  | refl i => intro hc; exact ChainFrom.cons hc (ChainFrom.refl c)
  | cons hj hch ih => intro hc; exact ChainFrom.cons hj (ih hc)

theorem reach_to_chain {P : PathFinderSpec Item} {w : Item} (h : ReachP P w) :
    ∃ n, ChainFrom P P.get_start_item w n := by
  induction h with
  | start => exact ⟨0, ChainFrom.refl _⟩
  | step _ hj ih =>
    obtain ⟨n, hch⟩ := ih
    exact ⟨n + 1, hch.snoc hj⟩

theorem chain_to_reach {P : PathFinderSpec Item} {z w : Item} {n : Nat}
    (h : ChainFrom P z w n) : ReachP P z → ReachP P w := by
  induction h with
  | refl i => exact id
  | cons hj _ ih => exact fun hz => ih (ReachP.step hz hj)

variable (P : PathFinderSpec Item) (cost : Item → Nat) (fp : Item → FP)

/-- Cost is monotone along a chain when it is monotone across single
successor steps. -/
theorem chain_cost_mono
    (hmono : ∀ i : Item, ∀ j ∈ P.get_next_states i, cost i ≤ cost j) :
    ∀ {z w : Item} {n : Nat}, ChainFrom P z w n → cost z ≤ cost w := by
  intro z w n h
  induction h with
  | refl i => exact le_refl _
  | cons hj _ ih => exact le_trans (hmono _ _ hj) ih

/-- Chains can be transported between two items with the same fingerprint:
the transported chain visits the same fingerprints with the same cost
increments. -/
theorem chain_transfer
    (hmono : ∀ i : Item, ∀ j ∈ P.get_next_states i, cost i ≤ cost j)
    (hnextd : ∀ i i' : Item, fp i = fp i' →
      (P.get_next_states i).map (fun j => (fp j, cost j - cost i)) =
        (P.get_next_states i').map (fun j => (fp j, cost j - cost i'))) :
    ∀ {n : Nat} {z w z' : Item}, ChainFrom P z w n → fp z = fp z' →
      cost z' ≤ cost z →
      ∃ w', ChainFrom P z' w' n ∧ fp w' = fp w ∧
        cost w' + cost z = cost w + cost z' := by
  intro n z w z' hch
  induction hch generalizing z' with
  | refl i =>
    intro hfp hc
    exact ⟨z', ChainFrom.refl z', hfp.symm, by omega⟩
  | @cons i j k n hj hch ih =>
    intro hfp hc
    have hmap := hnextd i z' hfp
    have hjmem : (fp j, cost j - cost i) ∈
        (P.get_next_states i).map (fun j => (fp j, cost j - cost i)) :=
      List.mem_map.mpr ⟨j, hj, rfl⟩
    rw [hmap] at hjmem
    obtain ⟨j', hj'mem, hj'eq⟩ := List.mem_map.mp hjmem
    simp only [Prod.mk.injEq] at hj'eq
    obtain ⟨hfpj, hdelta⟩ := hj'eq
    have hij : cost i ≤ cost j := hmono i j hj
    have hzj' : cost z' ≤ cost j' := hmono z' j' hj'mem
    have hjeq : cost j' + cost i = cost j + cost z' := by omega
    have hcj : cost j' ≤ cost j := by omega
    obtain ⟨w', hch', hfpw', hcw'⟩ := ih hfpj.symm hcj
    exact ⟨w', ChainFrom.cons hj'mem hch', hfpw', by omega⟩

end Kernel

/-! ## One-step characterization of the kernel loop -/

section KernelStep

variable {Item S : Type} (P : PathFinderSpec Item)
variable (cmp : Item → Item → Ordering) (skip : S → Item → Bool × S)

theorem loop_step_empty (fuel : Nat) (s : S) :
    find_best_path_loop P cmp skip (fuel + 1) [] s = SearchResult.exhausted := by
  simp [find_best_path_loop, popMax]

theorem loop_step_exhausted {q : List Item} (fuel : Nat) (s : S)
    (hpop : popMax cmp q = none) :
    find_best_path_loop P cmp skip (fuel + 1) q s = SearchResult.exhausted := by
  simp [find_best_path_loop, hpop]

theorem loop_step_found {q : List Item} {item : Item} {rest : List Item}
    (fuel : Nat) (s : S) (hpop : popMax cmp q = some (item, rest))
    (hfin : P.is_finished item = true) :
    find_best_path_loop P cmp skip (fuel + 1) q s = SearchResult.found item := by
  simp [find_best_path_loop, hpop, hfin]

theorem loop_step_skip {q : List Item} {item : Item} {rest : List Item}
    {s s' : S} (fuel : Nat) (hpop : popMax cmp q = some (item, rest))
    (hfin : P.is_finished item = false) (hskip : skip s item = (true, s')) :
    find_best_path_loop P cmp skip (fuel + 1) q s =
      find_best_path_loop P cmp skip fuel rest s' := by
  simp [find_best_path_loop, hpop, hfin, hskip]

theorem loop_step_expand {q : List Item} {item : Item} {rest : List Item}
    {s s' : S} (fuel : Nat) (hpop : popMax cmp q = some (item, rest))
    (hfin : P.is_finished item = false) (hskip : skip s item = (false, s')) :
    find_best_path_loop P cmp skip (fuel + 1) q s =
      find_best_path_loop P cmp skip fuel
        ((P.get_next_states item).foldl (fun q n => n :: q) rest) s' := by
  simp [find_best_path_loop, hpop, hfin, hskip]

end KernelStep

/-! ## Behaviour of the fingerprint skipper -/

theorem fingerprintSkipItem_pos {Item FP : Type} [DecidableEq FP]
    (fp : Item → FP) {s : List FP} {item : Item} (h : fp item ∈ s) :
    fingerprintSkipItem fp s item = (true, s) := by
  simp [fingerprintSkipItem, h]

theorem fingerprintSkipItem_neg {Item FP : Type} [DecidableEq FP]
    (fp : Item → FP) {s : List FP} {item : Item} (h : fp item ∉ s) :
    fingerprintSkipItem fp s item = (false, fp item :: s) := by
  simp [fingerprintSkipItem, h]

/-! ## The Dijkstra invariant of the fingerprint-pruned search

The invariant carries, besides reachability of every queued item, a ghost
assignment `sc` of the expansion cost of every seen fingerprint, with the
facts that every expansion happened at a cost no larger than anything now
pending, and that every successor generated by an expansion is either still
pending or has itself been seen at a cost no larger than its own. -/

section KernelOpt

variable {Item FP : Type} [DecidableEq FP]
variable (P : PathFinderSpec Item) (cost : Item → Nat) (fp : Item → FP)

/-- The record held by the invariant for one seen fingerprint `f`: the item
whose expansion inserted `f` into the seen set. -/
def WitnessAt (q : List Item) (seen : List FP) (sc : FP → Nat) (f : FP) : Prop :=
  ∃ x0 : Item, fp x0 = f ∧ cost x0 = sc f ∧ P.is_finished x0 = false ∧
    (∀ y ∈ q, cost x0 ≤ cost y) ∧
    (∀ j ∈ P.get_next_states x0, j ∈ q ∨ (fp j ∈ seen ∧ sc (fp j) ≤ cost j))

/-- The loop invariant. -/
structure KInv (q : List Item) (seen : List FP) (sc : FP → Nat) : Prop where
  reach : ∀ i ∈ q, ReachP P i
  wit : ∀ f ∈ seen, WitnessAt P cost fp q seen sc f
  startCover : P.get_start_item ∈ q ∨
    (fp P.get_start_item ∈ seen ∧
      sc (fp P.get_start_item) ≤ cost P.get_start_item)

theorem kinv_init : KInv P cost fp [P.get_start_item] [] (fun _ => 0) := by
  refine ⟨?_, ?_, ?_⟩
  · intro i hi
    rw [List.mem_singleton] at hi
    rw [hi]; exact ReachP.start
  · intro f hf; exact absurd hf (List.not_mem_nil f)
  · left; exact List.mem_singleton_self _

/-- Key bound: at the moment a goal item `x` is popped, its cost is below
the final cost of every goal chain that starts either at a pending item or
at the expansion witness of a seen fingerprint. -/
theorem key_chain_bound
    (hmono : ∀ i : Item, ∀ j ∈ P.get_next_states i, cost i ≤ cost j)
    (hgoal : ∀ i j : Item, fp i = fp j → P.is_finished i = P.is_finished j)
    (hnextd : ∀ i i' : Item, fp i = fp i' →
      (P.get_next_states i).map (fun j => (fp j, cost j - cost i)) =
        (P.get_next_states i').map (fun j => (fp j, cost j - cost i')))
    {q : List Item} {seen : List FP} {sc : FP → Nat} {x : Item}
    (hwit : ∀ f ∈ seen, WitnessAt P cost fp q seen sc f)
    (hxmin : ∀ y ∈ q, cost x ≤ cost y) :
    ∀ (n : Nat) (z w : Item), ChainFrom P z w n → P.is_finished w = true →
      (z ∈ q ∨ (P.is_finished z = false ∧
        ∀ j ∈ P.get_next_states z, j ∈ q ∨ (fp j ∈ seen ∧ sc (fp j) ≤ cost j))) →
      cost x ≤ cost w := by
  intro n
  induction n with
  | zero =>
    intro z w hch hw hz
    cases hch with
    | refl =>
      rcases hz with hz | ⟨hzf, _⟩
      · exact hxmin z hz
      · rw [hw] at hzf; exact absurd hzf (by simp)
  | succ n ih =>
    intro z w hch hw hz
    rcases hz with hz | ⟨_, hsucc⟩
    · exact le_trans (hxmin z hz) (chain_cost_mono P cost hmono hch)
    · cases hch with
      | cons hj hch' =>
        rename_i j
        rcases hsucc j hj with hjq | ⟨hjseen, hjsc⟩
        · exact ih j w hch' hw (Or.inl hjq)
        · obtain ⟨x1, hx1fp, hx1cost, hx1fin, _, hx1succ⟩ := hwit _ hjseen
          have hx1le : cost x1 ≤ cost j := by rw [hx1cost]; exact hjsc
          obtain ⟨w', hch'', hfpw', hcw'⟩ :=
            chain_transfer P cost fp hmono hnextd hch' hx1fp.symm hx1le
          have hw' : P.is_finished w' = true := by
            rw [hgoal w' w hfpw']; exact hw
          have := ih x1 w' hch'' hw' (Or.inr ⟨hx1fin, hx1succ⟩)
          omega

/-- Preservation of the invariant when a popped, non-goal item is skipped
(its fingerprint was already seen). -/
theorem kinv_skip {q : List Item} {seen : List FP} {sc : FP → Nat} {x : Item}
    {rest : List Item} (hinv : KInv P cost fp q seen sc)
    (hperm : q.Perm (x :: rest)) (hseen : fp x ∈ seen) :
    KInv P cost fp rest seen sc := by
  have hmemq : ∀ y ∈ rest, y ∈ q := fun y hy =>
    hperm.mem_iff.mpr (List.mem_cons_of_mem x hy)
  have hxq : x ∈ q := hperm.mem_iff.mpr (List.mem_cons_self x rest)
  refine ⟨?_, ?_, ?_⟩
  · intro i hi; exact hinv.reach i (hmemq i hi)
  · intro f hf
    obtain ⟨x0, h1, h2, h3, h4, h5⟩ := hinv.wit f hf
    refine ⟨x0, h1, h2, h3, fun y hy => h4 y (hmemq y hy), ?_⟩
    intro j hj
    rcases h5 j hj with hjq | hjs
    · rcases List.mem_cons.mp (hperm.mem_iff.mp hjq) with hjx | hjr
      · right
        obtain ⟨x0', h1', h2', _, h4', _⟩ := hinv.wit (fp x) hseen
        rw [hjx]
        exact ⟨hseen, by rw [← h2']; exact h4' x hxq⟩
      · left; exact hjr
    · right; exact hjs
  · rcases hinv.startCover with hs | hs
    · rcases List.mem_cons.mp (hperm.mem_iff.mp hs) with hsx | hsr
      · right
        obtain ⟨x0', _, h2', _, h4', _⟩ := hinv.wit (fp x) hseen
        rw [hsx]
        exact ⟨hseen, by rw [← h2']; exact h4' x hxq⟩
      · left; exact hsr
    · right; exact hs

/-- Preservation of the invariant when a popped, non-goal, unseen item is
expanded: its fingerprint is recorded at its cost and its successors are
pushed. -/
theorem kinv_expand
    (hmono : ∀ i : Item, ∀ j ∈ P.get_next_states i, cost i ≤ cost j)
    {q : List Item} {seen : List FP} {sc : FP → Nat} {x : Item}
    {rest : List Item} (hinv : KInv P cost fp q seen sc)
    (hperm : q.Perm (x :: rest)) (hxmin : ∀ y ∈ q, cost x ≤ cost y)
    (hnew : fp x ∉ seen) (hngoal : P.is_finished x = false) :
    KInv P cost fp ((P.get_next_states x).foldl (fun q n => n :: q) rest)
      (fp x :: seen) (fun g => if g = fp x then cost x else sc g) := by
  have hmemq : ∀ y ∈ rest, y ∈ q := fun y hy =>
    hperm.mem_iff.mpr (List.mem_cons_of_mem x hy)
  have hxq : x ∈ q := hperm.mem_iff.mpr (List.mem_cons_self x rest)
  have hreachx : ReachP P x := hinv.reach x hxq
  have hmemnew : ∀ y : Item,
      y ∈ (P.get_next_states x).foldl (fun q n => n :: q) rest ↔
        y ∈ P.get_next_states x ∨ y ∈ rest := fun y =>
    mem_foldl_cons (P.get_next_states x) rest y
  refine ⟨?_, ?_, ?_⟩
  · intro i hi
    rcases (hmemnew i).mp hi with hi | hi
    · exact ReachP.step hreachx hi
    · exact hinv.reach i (hmemq i hi)
  · intro f hf
    rcases List.mem_cons.mp hf with hf | hf
    · refine ⟨x, hf.symm, by simp [hf], hngoal, ?_, ?_⟩
      · intro y hy
        rcases (hmemnew y).mp hy with hy | hy
        · exact hmono x y hy
        · exact hxmin y (hmemq y hy)
      · intro j hj
        left; exact (hmemnew j).mpr (Or.inl hj)
    · obtain ⟨x0, h1, h2, h3, h4, h5⟩ := hinv.wit f hf
      have hfne : f ≠ fp x := fun he => hnew (he ▸ hf)
      refine ⟨x0, h1, by simp [hfne, h2], h3, ?_, ?_⟩
      · intro y hy
        rcases (hmemnew y).mp hy with hy | hy
        · exact le_trans (h4 x hxq) (hmono x y hy)
        · exact h4 y (hmemq y hy)
      · intro j hj
        rcases h5 j hj with hjq | ⟨hjs, hjsc⟩
        · rcases List.mem_cons.mp (hperm.mem_iff.mp hjq) with hjx | hjr
          · right
            refine ⟨by rw [hjx]; exact List.mem_cons_self _ _, ?_⟩
            rw [hjx]
            simp
          · left; exact (hmemnew j).mpr (Or.inr hjr)
        · right
          have hjne : fp j ≠ fp x := fun he => hnew (he ▸ hjs)
          exact ⟨List.mem_cons_of_mem _ hjs, by simp [hjne, hjsc]⟩
  · rcases hinv.startCover with hs | hs
    · rcases List.mem_cons.mp (hperm.mem_iff.mp hs) with hsx | hsr
      · right
        refine ⟨by rw [hsx]; exact List.mem_cons_self _ _, ?_⟩
        rw [hsx]
        simp
      · left; exact (hmemnew _).mpr (Or.inr hsr)
    · have hne : fp P.get_start_item ≠ fp x := fun he => hnew (he ▸ hs.1)
      right
      exact ⟨List.mem_cons_of_mem _ hs.1, by simp [hne, hs.2]⟩

/-- The generic optimality theorem: whatever the fuel, if the loop run with
the fingerprint skipper from an invariant state returns an item, that item
is a reachable goal of minimal cost among all reachable goals. -/
theorem loop_found_optimal
    (cmp : Item → Item → Ordering)
    (hpopmin : ∀ (q : List Item) (x : Item) (rest : List Item),
      popMax cmp q = some (x, rest) → ∀ y ∈ q, cost x ≤ cost y)
    (hmono : ∀ i : Item, ∀ j ∈ P.get_next_states i, cost i ≤ cost j)
    (hgoal : ∀ i j : Item, fp i = fp j → P.is_finished i = P.is_finished j)
    (hnextd : ∀ i i' : Item, fp i = fp i' →
      (P.get_next_states i).map (fun j => (fp j, cost j - cost i)) =
        (P.get_next_states i').map (fun j => (fp j, cost j - cost i'))) :
    ∀ (fuel : Nat) (q : List Item) (seen : List FP) (sc : FP → Nat) (x : Item),
      KInv P cost fp q seen sc →
      find_best_path_loop P cmp (fingerprintSkipItem fp) fuel q seen =
        SearchResult.found x →
      P.is_finished x = true ∧ ReachP P x ∧
        ∀ w : Item, ReachP P w → P.is_finished w = true → cost x ≤ cost w := by
  intro fuel
  induction fuel with
  | zero =>
    intro q seen sc x _ h
    exact absurd h (by simp [find_best_path_loop])
  | succ fuel ih =>
    intro q seen sc x hinv hrun
    cases hpop : popMax cmp q with
    | none =>
      rw [loop_step_exhausted P cmp _ fuel seen hpop] at hrun
      exact absurd hrun (by simp)
    | some pr =>
      obtain ⟨item, rest⟩ := pr
      have hperm := popMax_perm cmp hpop
      have hxmin := hpopmin q item rest hpop
      by_cases hfin : P.is_finished item = true
      · rw [loop_step_found P cmp _ fuel seen hpop hfin] at hrun
        have hx : item = x := by
          simpa using hrun
        subst hx
        refine ⟨hfin, hinv.reach item (popMax_mem cmp hpop), ?_⟩
        intro w hw hwfin
        obtain ⟨n, hch⟩ := reach_to_chain hw
        rcases hinv.startCover with hs | ⟨hs, hsc⟩
        · exact key_chain_bound P cost fp hmono hgoal hnextd hinv.wit hxmin
            n _ w hch hwfin (Or.inl hs)
        · obtain ⟨x0, h1, h2, h3, _, h5⟩ := hinv.wit _ hs
          have hx0le : cost x0 ≤ cost P.get_start_item := by
            rw [h2]; exact hsc
          obtain ⟨w', hch', hfpw', hcw'⟩ :=
            chain_transfer P cost fp hmono hnextd hch h1.symm hx0le
          have hw' : P.is_finished w' = true := by
            rw [hgoal w' w hfpw']; exact hwfin
          have := key_chain_bound P cost fp hmono hgoal hnextd hinv.wit hxmin
            n x0 w' hch' hw' (Or.inr ⟨h3, h5⟩)
          omega
      · rw [Bool.not_eq_true] at hfin
        by_cases hseen : fp item ∈ seen
        · rw [loop_step_skip P cmp _ fuel hpop hfin
            (fingerprintSkipItem_pos fp hseen)] at hrun
          exact ih rest seen sc x (kinv_skip P cost fp hinv hperm hseen) hrun
        · rw [loop_step_expand P cmp _ fuel hpop hfin
            (fingerprintSkipItem_neg fp hseen)] at hrun
          exact ih _ _ _ x
            (kinv_expand P cost fp hmono hinv hperm hxmin hseen hfin) hrun

/-- Soundness for an arbitrary skipper: a returned item is a reachable goal
state. -/
theorem loop_found_sound {S : Type} (cmp : Item → Item → Ordering)
    (skip : S → Item → Bool × S) :
    ∀ (fuel : Nat) (q : List Item) (s : S) (x : Item),
      (∀ i ∈ q, ReachP P i) →
      find_best_path_loop P cmp skip fuel q s = SearchResult.found x →
      ReachP P x ∧ P.is_finished x = true := by
  intro fuel
  induction fuel with
  | zero =>
    intro q s x _ h
    exact absurd h (by simp [find_best_path_loop])
  | succ fuel ih =>
    intro q s x hreach hrun
    cases hpop : popMax cmp q with
    | none =>
      rw [loop_step_exhausted P cmp skip fuel s hpop] at hrun
      exact absurd hrun (by simp)
    | some pr =>
      obtain ⟨item, rest⟩ := pr
      have hperm := popMax_perm cmp hpop
      have hmemq : ∀ y ∈ rest, y ∈ q := fun y hy =>
        hperm.mem_iff.mpr (List.mem_cons_of_mem item hy)
      by_cases hfin : P.is_finished item = true
      · rw [loop_step_found P cmp skip fuel s hpop hfin] at hrun
        have hx : item = x := by simpa using hrun
        subst hx
        exact ⟨hreach item (popMax_mem cmp hpop), hfin⟩
      · rw [Bool.not_eq_true] at hfin
        cases hsk : skip s item with
        | mk b s' =>
          cases b with
          | true =>
            rw [loop_step_skip P cmp skip fuel hpop hfin hsk] at hrun
            exact ih rest s' x (fun i hi => hreach i (hmemq i hi)) hrun
          | false =>
            rw [loop_step_expand P cmp skip fuel hpop hfin hsk] at hrun
            refine ih _ s' x ?_ hrun
            intro i hi
            rcases (mem_foldl_cons _ rest i).mp hi with hi | hi
            · exact ReachP.step (hreach item (popMax_mem cmp hpop)) hi
            · exact hreach i (hmemq i hi)

end KernelOpt

/-! ## Termination of the fingerprint-pruned search -/

theorem length_filter_mono {α : Type} {p q : α → Bool}
    (h : ∀ b : α, p b = true → q b = true) :
    ∀ l : List α, (l.filter p).length ≤ (l.filter q).length := by
  intro l
  induction l with
  | nil => simp
  | cons c t ih =>
    by_cases hc : p c = true
    · rw [List.filter_cons_of_pos hc, List.filter_cons_of_pos (h c hc)]
      simpa using ih
    · rw [List.filter_cons_of_neg (by simpa using hc)]
      by_cases hqc : q c = true
      · rw [List.filter_cons_of_pos hqc]
        exact le_trans ih (by simp)
      · rw [List.filter_cons_of_neg (by simpa using hqc)]
        exact ih

/-- Recording one more fingerprint strictly shrinks the pool of fingerprints
not yet seen, measured inside any list that contains the new fingerprint. -/
theorem length_filter_not_mem_cons_lt {α : Type} [DecidableEq α]
    {l s : List α} {a : α} (ha : a ∈ l) (hs : a ∉ s) :
    (l.filter (fun f => decide (f ∉ a :: s))).length <
      (l.filter (fun f => decide (f ∉ s))).length := by
  induction l with
  | nil => exact absurd ha (List.not_mem_nil a)
  | cons c t ih =>
    by_cases hca : c = a
    · subst hca
      rw [List.filter_cons_of_neg (by simp), List.filter_cons_of_pos (by simpa using hs)]
      have hmono : (t.filter (fun f => decide (f ∉ c :: s))).length ≤
          (t.filter (fun f => decide (f ∉ s))).length := by
        refine length_filter_mono ?_ t
        intro b hb
        simp only [decide_eq_true_eq] at hb ⊢
        intro hbs
        exact hb (List.mem_cons_of_mem c hbs)
      simp only [List.length_cons]
      omega
    · have hat : a ∈ t := by
        rcases List.mem_cons.mp ha with h | h
        · exact absurd h.symm hca
        · exact h
      have hiff : (c ∉ a :: s) ↔ (c ∉ s) := by
        simp only [List.mem_cons]
        constructor
        · intro h hc; exact h (Or.inr hc)
        · intro h hc
          rcases hc with hc | hc
          · exact hca hc
          · exact h hc
      by_cases hcs : c ∈ s
      · rw [List.filter_cons_of_neg (by simp [hcs]),
          List.filter_cons_of_neg (by simp [hcs])]
        exact ih hat
      · rw [List.filter_cons_of_pos (by simpa using hiff.mpr hcs),
          List.filter_cons_of_pos (by simpa using hcs)]
        simpa using ih hat

section KernelTerm

variable {Item FP : Type} [DecidableEq FP]
variable (P : PathFinderSpec Item) (fp : Item → FP)

/-- Generic termination: if an invariant `I` holds along the search, every
`I`-item's fingerprint lies in the finite pool `allFps`, and the branching is
bounded by `B`, then fuel exceeding the potential
`|queue| + (B+1)·|unseen pool| ` keeps the loop from running out. -/
theorem loop_no_out_of_fuel (cmp : Item → Item → Ordering)
    (allFps : List FP) (B : Nat) (I : Item → Prop)
    (hIstep : ∀ i : Item, I i → ∀ j ∈ P.get_next_states i, I j)
    (hIfp : ∀ i : Item, I i → fp i ∈ allFps)
    (hB : ∀ i : Item, (P.get_next_states i).length ≤ B) :
    ∀ (fuel : Nat) (q : List Item) (seen : List FP),
      (∀ i ∈ q, I i) →
      q.length + (B + 1) *
        ((allFps.filter (fun f => decide (f ∉ seen))).length) + 1 ≤ fuel →
      find_best_path_loop P cmp (fingerprintSkipItem fp) fuel q seen ≠
        SearchResult.outOfFuel := by
  intro fuel
  induction fuel with
  | zero => intro q seen _ hfuel; omega
  | succ fuel ih =>
    intro q seen hI hfuel
    cases hpop : popMax cmp q with
    | none =>
      rw [loop_step_exhausted P cmp _ fuel seen hpop]
      simp
    | some pr =>
      obtain ⟨item, rest⟩ := pr
      have hperm := popMax_perm cmp hpop
      have hlen : q.length = rest.length + 1 := by
        have := hperm.length_eq
        simpa using this
      have hitem : I item := hI item (popMax_mem cmp hpop)
      have hmemq : ∀ y ∈ rest, y ∈ q := fun y hy =>
        hperm.mem_iff.mpr (List.mem_cons_of_mem item hy)
      by_cases hfin : P.is_finished item = true
      · rw [loop_step_found P cmp _ fuel seen hpop hfin]
        simp
      · rw [Bool.not_eq_true] at hfin
        by_cases hseen : fp item ∈ seen
        · rw [loop_step_skip P cmp _ fuel hpop hfin
            (fingerprintSkipItem_pos fp hseen)]
          refine ih rest seen (fun i hi => hI i (hmemq i hi)) ?_
          omega
        · rw [loop_step_expand P cmp _ fuel hpop hfin
            (fingerprintSkipItem_neg fp hseen)]
          have hR : (allFps.filter
              (fun f => decide (f ∉ fp item :: seen))).length <
              (allFps.filter (fun f => decide (f ∉ seen))).length :=
            length_filter_not_mem_cons_lt (hIfp item hitem) hseen
          have hnq : ((P.get_next_states item).foldl
              (fun q n => n :: q) rest).length ≤ B + rest.length := by
            rw [length_foldl_cons]
            have := hB item
            omega
          refine ih _ _ ?_ ?_
          · intro i hi
            rcases (mem_foldl_cons _ rest i).mp hi with hi | hi
            · exact hIstep item hitem i hi
            · exact hI i (hmemq i hi)
          · have hexp : (B + 1) * ((allFps.filter
                (fun f => decide (f ∉ fp item :: seen))).length) + (B + 1) ≤
                (B + 1) * ((allFps.filter (fun f => decide (f ∉ seen))).length) := by
              have : (allFps.filter (fun f => decide (f ∉ fp item :: seen))).length + 1 ≤
                  (allFps.filter (fun f => decide (f ∉ seen))).length := hR
              calc (B + 1) * ((allFps.filter
                      (fun f => decide (f ∉ fp item :: seen))).length) + (B + 1)
                  = (B + 1) * ((allFps.filter
                      (fun f => decide (f ∉ fp item :: seen))).length + 1) := by ring
                _ ≤ (B + 1) * ((allFps.filter (fun f => decide (f ∉ seen))).length) :=
                    Nat.mul_le_mul_left _ this
            omega

end KernelTerm

/-! ## Facts about the day-17 successor generation -/

/-- A position together with the cell value it reads, as guaranteed by the
navigation primitive: the row exists and the cell exists in it. -/
def cellAt (m : List (List Nat)) (p : Pos2) : Option Nat :=
  match m[p.y]? with
  | none => none
  | some row => row[p.x]?

theorem safe_matrix_inv {p : Pos2} {m : List (List Nat)} {d : Direction}
    {q : Pos2} {v : Nat} (h : safe_matrix_add_and_get p m d = some (q, v)) :
    cellAt m q = some v ∧
      ((d = Direction.East ∧ q.x = p.x + 1 ∧ q.y = p.y) ∨
       (d = Direction.South ∧ q.x = p.x ∧ q.y = p.y + 1) ∨
       (d = Direction.West ∧ p.x = q.x + 1 ∧ q.y = p.y) ∨
       (d = Direction.North ∧ q.x = p.x ∧ p.y = q.y + 1)) := by
  unfold safe_matrix_add_and_get at h
  cases d <;> simp only at h
  case East =>
    split at h
    · simp at h
    rename_i row hrow
    split at h
    · simp at h
    rename_i w hc
    simp only [Option.some.injEq, Prod.mk.injEq] at h
    obtain ⟨hq, hv⟩ := h
    subst hq; subst hv
    exact ⟨by simp [cellAt, hrow, hc], Or.inl ⟨rfl, rfl, rfl⟩⟩
  case South =>
    split at h
    · simp at h
    rename_i row hrow
    split at h
    · simp at h
    rename_i w hc
    simp only [Option.some.injEq, Prod.mk.injEq] at h
    obtain ⟨hq, hv⟩ := h
    subst hq; subst hv
    exact ⟨by simp [cellAt, hrow, hc], Or.inr (Or.inl ⟨rfl, rfl, rfl⟩)⟩
  case West =>
    by_cases hx : p.x = 0
    · rw [if_pos hx] at h
      simp at h
    rw [if_neg hx] at h
    split at h
    · simp at h
    rename_i row hrow
    simp only [Option.some.injEq] at hrow
    subst hrow
    split at h
    · simp at h
    rename_i w hc
    split at h
    · simp at h
    rename_i u hu
    simp only [Option.some.injEq, Prod.mk.injEq] at h
    obtain ⟨hq, hv⟩ := h
    subst hq; subst hv
    refine ⟨by simp [cellAt, hc, hu], Or.inr (Or.inr (Or.inl ⟨rfl, ?_, rfl⟩))⟩
    show p.x = p.x - 1 + 1
    omega
  case North =>
    by_cases hy : p.y = 0
    · rw [if_pos hy] at h
      simp at h
    rw [if_neg hy] at h
    split at h
    · simp at h
    rename_i row hrow
    simp only [Option.some.injEq] at hrow
    subst hrow
    split at h
    · simp at h
    rename_i w hc
    split at h
    · simp at h
    rename_i u hu
    simp only [Option.some.injEq, Prod.mk.injEq] at h
    obtain ⟨hq, hv⟩ := h
    subst hq; subst hv
    refine ⟨by simp [cellAt, hc, hu], Or.inr (Or.inr (Or.inr ⟨rfl, rfl, ?_⟩))⟩
    show p.y = p.y - 1 + 1
    omega

theorem safe_matrix_cell {p : Pos2} {m : List (List Nat)} {d : Direction}
    {q : Pos2} {v : Nat} (h : safe_matrix_add_and_get p m d = some (q, v)) :
    cellAt m q = some v :=
  (safe_matrix_inv h).1

theorem walkLoop_spec (m : List (List Nat)) (d : Direction) :
    ∀ (n : Nat) (p : Pos2) (L s : Nat) {p' : Pos2} {L' s' : Nat},
      walkLoop m d n p L s = some (p', L', s') →
      L ≤ L' ∧ s' = s + n := by
  intro n
  induction n with
  | zero =>
    intro p L s p' L' s' h
    simp only [walkLoop, Option.some.injEq, Prod.mk.injEq] at h
    omega
  | succ n ih =>
    intro p L s p' L' s' h
    simp only [walkLoop] at h
    cases hstep : safe_matrix_add_and_get p m d with
    | none => rw [hstep] at h; exact absurd h (by simp)
    | some qv =>
      obtain ⟨q, v⟩ := qv
      rw [hstep] at h
      have := ih q (L + v) (s + 1) h
      omega

theorem walkLoop_add (m : List (List Nat)) (d : Direction) :
    ∀ (n : Nat) (p : Pos2) (L1 L2 s : Nat),
      walkLoop m d n p (L1 + L2) s =
        (walkLoop m d n p L2 s).map (fun r => (r.1, L1 + r.2.1, r.2.2)) := by
  intro n
  induction n with
  | zero => intro p L1 L2 s; rfl
  | succ n ih =>
    intro p L1 L2 s
    simp only [walkLoop]
    cases hstep : safe_matrix_add_and_get p m d with
    | none => simp
    | some qv =>
      obtain ⟨q, v⟩ := qv
      simp only
      rw [show L1 + L2 + v = L1 + (L2 + v) by omega]
      exact ih q L1 (L2 + v) (s + 1)

/-- Inversion of one candidate direction of `get_next_states`. -/
theorem nextState_inversion {m : HeatMap} {i : HeatFlow} {d : Direction}
    {j : HeatFlow} (h : m.nextState i d = some j) :
    ∃ straight0 steps : Nat,
      walkLoop m.map d steps i.pos i.loss straight0 =
        some (j.pos, j.loss, j.straight) ∧
      j.direction = some d ∧ m.checker.check j.straight = true ∧
      ((∃ prev : Direction, i.direction = some prev ∧ d ≠ prev.turn_back ∧
          ((d = prev ∧ straight0 = i.straight ∧ steps = 1) ∨
           (d ≠ prev ∧ straight0 = 0 ∧ steps = m.checker.min_steps))) ∨
        (i.direction = none ∧ straight0 = i.straight ∧
          steps = m.checker.min_steps)) := by
  unfold HeatMap.nextState at h
  cases hdir : i.direction with
  | none =>
    rw [hdir] at h
    simp only at h
    cases hwalk : walkLoop m.map d m.checker.min_steps i.pos i.loss i.straight with
    | none => rw [hwalk] at h; exact absurd h (by simp)
    | some r =>
      obtain ⟨pos, loss, straight⟩ := r
      rw [hwalk] at h
      simp only at h
      by_cases hchk : m.checker.check straight = true
      · rw [if_pos hchk] at h
        simp only [Option.some.injEq] at h
        subst h
        exact ⟨i.straight, m.checker.min_steps, hwalk, rfl, hchk,
          Or.inr ⟨rfl, rfl, rfl⟩⟩
      · rw [if_neg (by simpa using hchk)] at h
        exact absurd h (by simp)
  | some prev =>
    rw [hdir] at h
    simp only at h
    by_cases hback : d = prev.turn_back
    · rw [if_pos hback] at h
      exact absurd h (by simp)
    · rw [if_neg hback] at h
      by_cases hsame : d = prev
      · rw [if_pos hsame] at h
        simp only at h
        cases hwalk : walkLoop m.map d 1 i.pos i.loss i.straight with
        | none => rw [hwalk] at h; exact absurd h (by simp)
        | some r =>
          obtain ⟨pos, loss, straight⟩ := r
          rw [hwalk] at h
          simp only at h
          by_cases hchk : m.checker.check straight = true
          · rw [if_pos hchk] at h
            simp only [Option.some.injEq] at h
            subst h
            exact ⟨i.straight, 1, hwalk, rfl, hchk,
              Or.inl ⟨prev, rfl, hback, Or.inl ⟨hsame, rfl, rfl⟩⟩⟩
          · rw [if_neg (by simpa using hchk)] at h
            exact absurd h (by simp)
      · rw [if_neg hsame] at h
        simp only at h
        cases hwalk : walkLoop m.map d m.checker.min_steps i.pos i.loss 0 with
        | none => rw [hwalk] at h; exact absurd h (by simp)
        | some r =>
          obtain ⟨pos, loss, straight⟩ := r
          rw [hwalk] at h
          simp only at h
          by_cases hchk : m.checker.check straight = true
          · rw [if_pos hchk] at h
            simp only [Option.some.injEq] at h
            subst h
            exact ⟨0, m.checker.min_steps, hwalk, rfl, hchk,
              Or.inl ⟨prev, rfl, hback, Or.inr ⟨hsame, rfl, rfl⟩⟩⟩
          · rw [if_neg (by simpa using hchk)] at h
            exact absurd h (by simp)

/-- The tail of the per-direction successor computation: test the straight
counter after the walk and build the successor record. -/
def postProcess (m : HeatMap) (d : Direction) (r : Option (Pos2 × Nat × Nat)) :
    Option HeatFlow :=
  match r with
  | none => none
  | some (pos, loss, straight) =>
    if m.checker.check straight then
      some { loss := loss, straight := straight, pos := pos,
             direction := some d }
    else none

theorem nextState_eq_back {m : HeatMap} {i : HeatFlow} {d prev : Direction}
    (hdir : i.direction = some prev) (hback : d = prev.turn_back) :
    m.nextState i d = none := by
  subst hback
  unfold HeatMap.nextState
  rw [hdir]
  cases prev <;> rfl

theorem nextState_eq_same {m : HeatMap} {i : HeatFlow} {d prev : Direction}
    (hdir : i.direction = some prev) (hsame : d = prev) :
    m.nextState i d =
      postProcess m d (walkLoop m.map d 1 i.pos i.loss i.straight) := by
  subst hsame
  unfold HeatMap.nextState
  rw [hdir]
  cases d <;> rfl

theorem nextState_eq_turn {m : HeatMap} {i : HeatFlow} {d prev : Direction}
    (hdir : i.direction = some prev) (hback : d ≠ prev.turn_back)
    (hsame : d ≠ prev) :
    m.nextState i d =
      postProcess m d (walkLoop m.map d m.checker.min_steps i.pos i.loss 0) := by
  unfold HeatMap.nextState
  rw [hdir]
  cases d <;> cases prev <;>
    first
      | rfl
      | exact absurd rfl hsame
      | exact absurd rfl hback

theorem nextState_eq_start {m : HeatMap} {i : HeatFlow} {d : Direction}
    (hdir : i.direction = none) :
    m.nextState i d =
      postProcess m d
        (walkLoop m.map d m.checker.min_steps i.pos i.loss i.straight) := by
  unfold HeatMap.nextState
  rw [hdir]
  rfl

/-- The per-direction successor, reduced to its fingerprint and loss
increment, does not depend on the accumulated loss of the parent. -/
theorem postProcess_delta (m : HeatMap) (d : Direction) (n : Nat) (p : Pos2)
    (s : Nat) (L L' : Nat) :
    (postProcess m d (walkLoop m.map d n p L s)).map
        (fun j => (j.get_fingerprint, j.loss - L)) =
      (postProcess m d (walkLoop m.map d n p L' s)).map
        (fun j => (j.get_fingerprint, j.loss - L')) := by
  have h1 := walkLoop_add m.map d n p L 0 s
  rw [Nat.add_zero] at h1
  have h2 := walkLoop_add m.map d n p L' 0 s
  rw [Nat.add_zero] at h2
  rw [h1, h2]
  cases hbase : walkLoop m.map d n p 0 s with
  | none => rfl
  | some r =>
    obtain ⟨pos, w, st⟩ := r
    simp only [Option.map_some']
    by_cases hchk : m.checker.check st = true
    · simp [postProcess, hchk, HeatFlow.get_fingerprint]
    · simp [postProcess, hchk]

/-- Two states with the same fingerprint generate, direction by direction,
the same successor fingerprints with the same loss increments. -/
theorem nextState_delta (m : HeatMap) (i i' : HeatFlow) (d : Direction)
    (hpos : i.pos = i'.pos) (hdir : i.direction = i'.direction)
    (hstr : i.straight = i'.straight) :
    (m.nextState i d).map (fun j => (j.get_fingerprint, j.loss - i.loss)) =
      (m.nextState i' d).map (fun j => (j.get_fingerprint, j.loss - i'.loss)) := by
  cases hd : i.direction with
  | none =>
    have hd' : i'.direction = none := by rw [← hdir]; exact hd
    rw [nextState_eq_start hd, nextState_eq_start hd', hpos, hstr]
    exact postProcess_delta m d m.checker.min_steps i'.pos i'.straight _ _
  | some prev =>
    have hd' : i'.direction = some prev := by rw [← hdir]; exact hd
    by_cases hback : d = prev.turn_back
    · rw [nextState_eq_back hd hback, nextState_eq_back hd' hback]
      rfl
    · by_cases hsame : d = prev
      · rw [nextState_eq_same hd hsame, nextState_eq_same hd' hsame, hpos, hstr]
        exact postProcess_delta m d 1 i'.pos i'.straight _ _
      · rw [nextState_eq_turn hd hback hsame, nextState_eq_turn hd' hback hsame,
          hpos]
        exact postProcess_delta m d m.checker.min_steps i'.pos 0 _ _

/-- The successor generation of two states with equal fingerprints agrees up
to the additive loss offset: this is the soundness core of the fingerprint
pruning. -/
theorem get_next_states_delta (m : HeatMap) (i i' : HeatFlow)
    (hfp : i.get_fingerprint = i'.get_fingerprint) :
    (m.get_next_states i).map (fun j => (j.get_fingerprint, j.loss - i.loss)) =
      (m.get_next_states i').map
        (fun j => (j.get_fingerprint, j.loss - i'.loss)) := by
  unfold HeatFlow.get_fingerprint at hfp
  simp only [Prod.mk.injEq] at hfp
  obtain ⟨hpos, hdir, hstr⟩ := hfp
  unfold HeatMap.get_next_states
  rw [List.map_filterMap, List.map_filterMap]
  apply List.filterMap_congr
  intro d _
  exact nextState_delta m i i' d hpos hdir hstr

/-- Successor generation never decreases the accumulated loss (all cell
weights are non-negative). -/
theorem get_next_states_loss_mono (m : HeatMap) (i : HeatFlow) :
    ∀ j ∈ m.get_next_states i, i.loss ≤ j.loss := by
  intro j hj
  rw [HeatMap.get_next_states] at hj
  obtain ⟨d, _, hd⟩ := List.mem_filterMap.mp hj
  obtain ⟨s0, steps, hwalk, _, _, _⟩ := nextState_inversion hd
  exact (walkLoop_spec m.map d steps i.pos i.loss s0 hwalk).1

/-- The goal test depends only on the fingerprint (indeed only on the
position). -/
theorem is_finished_fp (m : HeatMap) (i j : HeatFlow)
    (h : i.get_fingerprint = j.get_fingerprint) :
    m.is_finished i = m.is_finished j := by
  unfold HeatFlow.get_fingerprint at h
  simp only [Prod.mk.injEq] at h
  unfold HeatMap.is_finished
  rw [h.1]

/-! ## Optimality of the day-17 search (helper shared by several claims) -/

/-- The day-17 instantiation satisfies all hypotheses of the generic
optimality theorem; hence any found result is a reachable goal of minimal
loss. -/
theorem day17_run_optimal (m : HeatMap) (fuel : Nat) (x : HeatFlow)
    (hrun : m.find_best_path fuel = SearchResult.found x) :
    m.is_finished x = true ∧ ReachP m.pathFinderSpec x ∧
      ∀ w : HeatFlow, ReachP m.pathFinderSpec w → m.is_finished w = true →
        x.loss ≤ w.loss := by
  exact loop_found_optimal m.pathFinderSpec (fun i => i.loss)
    HeatFlow.get_fingerprint heatCmp
    (fun q x rest hp => popMax_heatCmp_loss_min hp)
    (fun i j hj => get_next_states_loss_mono m i j hj)
    (fun i j hfp => is_finished_fp m i j hfp)
    (fun i i' hfp => get_next_states_delta m i i' hfp)
    fuel [m.get_start_item] [] (fun _ => 0) x
    (kinv_init m.pathFinderSpec (fun i => i.loss) HeatFlow.get_fingerprint)
    hrun

/-- A 1-by-1 example grid (start is already the goal). -/
def exMap11 : HeatMap :=
  { map := [[1]], checker := { min_steps := 1, max_steps := 3 } }

/-- A 2-by-2 example grid. -/
def exMap22 : HeatMap :=
  { map := [[1, 2], [3, 4]], checker := { min_steps := 1, max_steps := 3 } }

/-- C1: with the priority-queue frontier (`BinaryHeap` under the `HeatFlow`
ordering) and the fingerprint skipper, any state returned by
`find_best_path` satisfies the goal predicate, is reachable, and no other
reachable state satisfying the goal predicate has strictly lower accumulated
loss. -/
theorem c1_find_best_path_optimal (m : HeatMap) (fuel : Nat) (x : HeatFlow)
    (hrun : m.find_best_path fuel = SearchResult.found x) :
    m.is_finished x = true ∧ ReachP m.pathFinderSpec x ∧
      ∀ w : HeatFlow, ReachP m.pathFinderSpec w → m.is_finished w = true →
        x.loss ≤ w.loss :=
  day17_run_optimal m fuel x hrun

theorem c1_find_best_path_optimal_witness :
    exMap11.find_best_path 1 =
      SearchResult.found exMap11.get_start_item ∧
    (exMap11.is_finished exMap11.get_start_item = true ∧
      ReachP exMap11.pathFinderSpec exMap11.get_start_item ∧
      ∀ w : HeatFlow, ReachP exMap11.pathFinderSpec w →
        exMap11.is_finished w = true →
        exMap11.get_start_item.loss ≤ w.loss) :=
  ⟨rfl, c1_find_best_path_optimal exMap11 1 exMap11.get_start_item rfl⟩

/-- C2: on the same input, the run with the no-op skipper never finds a
strictly better (lower-loss) answer than the run with the fingerprint
skipper: the pruning is safe. -/
theorem c2_none_skipper_never_better (m : HeatMap) (fuel1 fuel2 : Nat)
    (x y : HeatFlow)
    (hfprun : m.find_best_path fuel1 = SearchResult.found x)
    (hnorun : m.find_best_path_none fuel2 = SearchResult.found y) :
    x.loss ≤ y.loss := by
  obtain ⟨_, _, hmin⟩ := day17_run_optimal m fuel1 x hfprun
  obtain ⟨hyreach, hyfin⟩ := loop_found_sound m.pathFinderSpec heatCmp
    noneSkipItem fuel2 [m.pathFinderSpec.get_start_item] () y
    (by
      intro i hi
      rw [List.mem_singleton] at hi
      rw [hi]
      exact ReachP.start) hnorun
  exact hmin y hyreach hyfin

theorem c2_none_skipper_never_better_witness :
    exMap11.find_best_path 1 =
      SearchResult.found exMap11.get_start_item ∧
    exMap11.find_best_path_none 1 =
      SearchResult.found exMap11.get_start_item ∧
    exMap11.get_start_item.loss ≤ exMap11.get_start_item.loss :=
  ⟨rfl, rfl,
    c2_none_skipper_never_better exMap11 1 1 _ _ rfl rfl⟩

/-! ## Termination of the day-17 search (claim C8) -/

/-- The position lies inside the grid: its row exists and its column is
inside that row. -/
def InGrid (m : List (List Nat)) (p : Pos2) : Prop :=
  ∃ row : List Nat, m[p.y]? = some row ∧ p.x < row.length

theorem cellAt_inGrid {m : List (List Nat)} {p : Pos2} {v : Nat}
    (h : cellAt m p = some v) : InGrid m p := by
  unfold cellAt at h
  split at h
  · simp at h
  rename_i row hrow
  rcases List.getElem?_eq_some.mp h with ⟨hl, _⟩
  exact ⟨row, hrow, hl⟩

theorem walkLoop_pos_inGrid (m : List (List Nat)) (d : Direction) :
    ∀ (n : Nat) (p : Pos2) (L s : Nat) {p' : Pos2} {L' s' : Nat},
      walkLoop m d n p L s = some (p', L', s') →
      (n = 0 ∧ p' = p) ∨ InGrid m p' := by
  intro n
  induction n with
  | zero =>
    intro p L s p' L' s' h
    simp only [walkLoop, Option.some.injEq, Prod.mk.injEq] at h
    left; exact ⟨rfl, h.1.symm⟩
  | succ n ih =>
    intro p L s p' L' s' h
    simp only [walkLoop] at h
    cases hstep : safe_matrix_add_and_get p m d with
    | none => rw [hstep] at h; exact absurd h (by simp)
    | some qv =>
      obtain ⟨q, v⟩ := qv
      rw [hstep] at h
      rcases ih q (L + v) (s + 1) h with ⟨_, hq⟩ | hq
      · right
        rw [hq]
        exact cellAt_inGrid (safe_matrix_cell hstep)
      · right; exact hq

/-- The invariant carried through the day-17 search for termination: the
position is inside the grid and the straight counter is bounded by
`max_steps`. -/
def GoodItem (m : HeatMap) (i : HeatFlow) : Prop :=
  InGrid m.map i.pos ∧ i.straight ≤ m.checker.max_steps

theorem goodItem_step (m : HeatMap) (i : HeatFlow) (hi : GoodItem m i) :
    ∀ j ∈ m.get_next_states i, GoodItem m j := by
  intro j hj
  rw [HeatMap.get_next_states] at hj
  obtain ⟨d, _, hd⟩ := List.mem_filterMap.mp hj
  obtain ⟨s0, steps, hwalk, _, hchk, _⟩ := nextState_inversion hd
  constructor
  · rcases walkLoop_pos_inGrid m.map d steps i.pos i.loss s0 hwalk with ⟨_, hp⟩ | hp
    · rw [hp]; exact hi.1
    · exact hp
  · have := of_decide_eq_true hchk
    exact this.2

/-- The option-direction component of a fingerprint can take five values. -/
def dirOptions : List (Option Direction) :=
  [none, some Direction.East, some Direction.North, some Direction.West,
    some Direction.South]

/-- The finite pool of fingerprints of a `W`-by-`H` grid with straight
counters up to `maxS`. -/
def allFingerprints (W H maxS : Nat) : List (Pos2 × Option Direction × Nat) :=
  (List.range W).flatMap (fun x =>
    (List.range H).flatMap (fun y =>
      dirOptions.flatMap (fun d =>
        (List.range (maxS + 1)).map (fun s => (Pos2.new x y, d, s)))))

theorem mem_allFingerprints {W H maxS : Nat} (p : Pos2)
    (od : Option Direction) (s : Nat) (hx : p.x < W) (hy : p.y < H)
    (hs : s ≤ maxS) : (p, od, s) ∈ allFingerprints W H maxS := by
  unfold allFingerprints
  refine List.mem_flatMap.mpr ⟨p.x, List.mem_range.mpr hx, ?_⟩
  refine List.mem_flatMap.mpr ⟨p.y, List.mem_range.mpr hy, ?_⟩
  refine List.mem_flatMap.mpr ⟨od, ?_, ?_⟩
  · cases od with
    | none => simp [dirOptions]
    | some d => cases d <;> simp [dirOptions]
  · exact List.mem_map.mpr ⟨s, List.mem_range.mpr (by omega), rfl⟩

/-- Explicit sufficient fuel for the day-17 search. -/
def day17Fuel (m : HeatMap) : Nat :=
  2 + 5 * (allFingerprints ((m.map.getD 0 []).length) m.map.length
    m.checker.max_steps).length

/-- On a non-empty rectangular grid, any fuel of at least `day17Fuel` keeps
the day-17 search from running out: the run ends in Found or Exhausted. -/
theorem day17_no_outOfFuel (m : HeatMap)
    (hh : 0 < m.map.length)
    (hw : 0 < (m.map.getD 0 []).length)
    (hrect : ∀ row ∈ m.map, row.length = (m.map.getD 0 []).length)
    (fuel : Nat) (hfuel : day17Fuel m ≤ fuel) :
    m.find_best_path fuel ≠ SearchResult.outOfFuel := by
  have hrow0 : m.map[0]? = some (m.map.getD 0 []) := by
    rw [List.getD_eq_getElem?_getD]
    rw [List.getElem?_eq_getElem hh]
    simp
  have hstartGood : GoodItem m m.get_start_item := by
    refine ⟨⟨m.map.getD 0 [], hrow0, hw⟩, ?_⟩
    show 0 ≤ m.checker.max_steps
    omega
  have hfp : ∀ i : HeatFlow, GoodItem m i →
      i.get_fingerprint ∈ allFingerprints ((m.map.getD 0 []).length)
        m.map.length m.checker.max_steps := by
    intro i hi
    obtain ⟨⟨row, hrow, hxr⟩, hs⟩ := hi
    have hy : i.pos.y < m.map.length := (List.getElem?_eq_some.mp hrow).1
    have hrl : row.length = (m.map.getD 0 []).length := by
      refine hrect row ?_
      rcases List.getElem?_eq_some.mp hrow with ⟨hl, he⟩
      rw [← he]
      exact List.getElem_mem hl
    have hx : i.pos.x < (m.map.getD 0 []).length := by omega
    exact mem_allFingerprints i.pos i.direction i.straight hx hy hs
  have hB : ∀ i : HeatFlow, (m.get_next_states i).length ≤ 4 := by
    intro i
    rw [HeatMap.get_next_states]
    exact List.length_filterMap_le (m.nextState i) Direction.iter
  refine loop_no_out_of_fuel m.pathFinderSpec HeatFlow.get_fingerprint heatCmp
    (allFingerprints ((m.map.getD 0 []).length) m.map.length
      m.checker.max_steps) 4 (GoodItem m)
    (fun i hi j hj => goodItem_step m i hi j hj) hfp hB fuel
    [m.get_start_item] []
    (by
      intro i hi
      rw [List.mem_singleton] at hi
      rw [hi]
      exact hstartGood)
    ?_
  have hle := List.length_filter_le
    (fun f => decide (f ∉ ([] : List (Pos2 × Option Direction × Nat))))
    (allFingerprints ((m.map.getD 0 []).length) m.map.length
      m.checker.max_steps)
  unfold day17Fuel at hfuel
  simp only [List.length_singleton]
  omega

/-! ## Claims C3, C4 and C8 -/

/-- C3: in every loop iteration the extracted item is tested against the
goal predicate first — and, satisfying it, is returned at once, for every
skipper function and skipper state whatsoever (in particular when its
fingerprint is already recorded); otherwise the skipper transition is
applied exactly once (its updated state `s'` is threaded into the
continuation), and only a non-skipped item has its successors generated and
pushed. -/
theorem c3_loop_control_flow {Item S : Type} (P : PathFinderSpec Item)
    (cmp : Item → Item → Ordering) (skip : S → Item → Bool × S)
    (fuel : Nat) (q : List Item) (s : S) (item : Item) (rest : List Item)
    (hpop : popMax cmp q = some (item, rest)) :
    (P.is_finished item = true →
      find_best_path_loop P cmp skip (fuel + 1) q s =
        SearchResult.found item) ∧
    (P.is_finished item = false → ∀ s' : S,
      (skip s item = (true, s') →
        find_best_path_loop P cmp skip (fuel + 1) q s =
          find_best_path_loop P cmp skip fuel rest s') ∧
      (skip s item = (false, s') →
        find_best_path_loop P cmp skip (fuel + 1) q s =
          find_best_path_loop P cmp skip fuel
            ((P.get_next_states item).foldl (fun acc n => n :: acc) rest) s')) :=
  ⟨fun hfin => loop_step_found P cmp skip fuel s hpop hfin,
   fun hfin s' =>
     ⟨fun hskip => loop_step_skip P cmp skip fuel hpop hfin hskip,
      fun hskip => loop_step_expand P cmp skip fuel hpop hfin hskip⟩⟩

theorem c3_loop_control_flow_witness :
    popMax heatCmp [exMap11.get_start_item] =
      some (exMap11.get_start_item, []) ∧
    ((exMap11.pathFinderSpec.is_finished exMap11.get_start_item = true →
      find_best_path_loop exMap11.pathFinderSpec heatCmp noneSkipItem 1
        [exMap11.get_start_item] () =
          SearchResult.found exMap11.get_start_item) ∧
    (exMap11.pathFinderSpec.is_finished exMap11.get_start_item = false →
      ∀ s' : Unit,
      (noneSkipItem () exMap11.get_start_item = (true, s') →
        find_best_path_loop exMap11.pathFinderSpec heatCmp noneSkipItem 1
          [exMap11.get_start_item] () =
            find_best_path_loop exMap11.pathFinderSpec heatCmp noneSkipItem 0
              [] s') ∧
      (noneSkipItem () exMap11.get_start_item = (false, s') →
        find_best_path_loop exMap11.pathFinderSpec heatCmp noneSkipItem 1
          [exMap11.get_start_item] () =
            find_best_path_loop exMap11.pathFinderSpec heatCmp noneSkipItem 0
              ((exMap11.pathFinderSpec.get_next_states
                exMap11.get_start_item).foldl (fun acc n => n :: acc) [])
              s'))) :=
  ⟨rfl, c3_loop_control_flow exMap11.pathFinderSpec heatCmp noneSkipItem 0
    [exMap11.get_start_item] () exMap11.get_start_item [] rfl⟩

/-- C4: on an empty frontier the kernel yields the Exhausted outcome (it
returns nothing rather than crashing); `best_path` surfaces exhaustion as
the structured `NoBestPathFound` error and a found state as its loss; and on
any non-empty rectangular grid, with sufficient fuel, `best_path` returns
either a cost or that error. -/
theorem c4_exhaustion_and_best_path (m : HeatMap) (fuel : Nat) :
    (∀ {Item S : Type} (P : PathFinderSpec Item)
       (cmp : Item → Item → Ordering) (skip : S → Item → Bool × S)
       (f : Nat) (s : S),
         find_best_path_loop P cmp skip (f + 1) [] s =
           SearchResult.exhausted) ∧
    (m.find_best_path fuel = SearchResult.exhausted →
      m.best_path fuel = some (Except.error DayError.noBestPathFound)) ∧
    (∀ x : HeatFlow, m.find_best_path fuel = SearchResult.found x →
      m.best_path fuel = some (Except.ok x.loss)) ∧
    (0 < m.map.length → 0 < (m.map.getD 0 []).length →
      (∀ row ∈ m.map, row.length = (m.map.getD 0 []).length) →
      day17Fuel m ≤ fuel →
      (∃ c : Nat, m.best_path fuel = some (Except.ok c)) ∨
        m.best_path fuel = some (Except.error DayError.noBestPathFound)) := by
  refine ⟨?_, ?_, ?_, ?_⟩
  · intro Item S P cmp skip f s
    exact loop_step_empty P cmp skip f s
  · intro hex
    unfold HeatMap.best_path
    rw [hex]
  · intro x hx
    unfold HeatMap.best_path
    rw [hx]
  · intro hh hw hrect hfuel
    have hno := day17_no_outOfFuel m hh hw hrect fuel hfuel
    cases hres : m.find_best_path fuel with
    | found x =>
      left
      refine ⟨x.loss, ?_⟩
      unfold HeatMap.best_path
      rw [hres]
    | exhausted =>
      right
      unfold HeatMap.best_path
      rw [hres]
    | outOfFuel => exact absurd hres hno

/-- A 2-by-2 grid on which the part-2 style constraint `min_steps = 5`
cannot be satisfied: the search exhausts. -/
def exMapNoPath : HeatMap :=
  { map := [[1, 1], [1, 1]], checker := { min_steps := 5, max_steps := 6 } }

theorem c4_exhaustion_and_best_path_witness :
    exMapNoPath.find_best_path 702 = SearchResult.exhausted ∧
    exMapNoPath.best_path 702 =
      some (Except.error DayError.noBestPathFound) :=
  ⟨rfl, (c4_exhaustion_and_best_path exMapNoPath 702).2.1 rfl⟩

/-- C8: on every non-empty rectangular grid the fingerprint-pruned day-17
search terminates: some finite fuel (computed from the finite fingerprint
pool) makes it reach the Found or the Exhausted outcome. -/
theorem c8_day17_terminates (m : HeatMap)
    (hh : 0 < m.map.length)
    (hw : 0 < (m.map.getD 0 []).length)
    (hrect : ∀ row ∈ m.map, row.length = (m.map.getD 0 []).length) :
    ∃ fuel : Nat,
      (∃ x : HeatFlow, m.find_best_path fuel = SearchResult.found x) ∨
        m.find_best_path fuel = SearchResult.exhausted := by
  refine ⟨day17Fuel m, ?_⟩
  have h := day17_no_outOfFuel m hh hw hrect (day17Fuel m) (le_refl _)
  cases hres : m.find_best_path (day17Fuel m) with
  | found x => exact Or.inl ⟨x, rfl⟩
  | exhausted => exact Or.inr rfl
  | outOfFuel => exact absurd hres h

theorem c8_day17_terminates_witness :
    (0 < exMapNoPath.map.length ∧ 0 < (exMapNoPath.map.getD 0 []).length ∧
      ∀ row ∈ exMapNoPath.map,
        row.length = (exMapNoPath.map.getD 0 []).length) ∧
    (∃ fuel : Nat,
      (∃ x : HeatFlow,
        exMapNoPath.find_best_path fuel = SearchResult.found x) ∨
        exMapNoPath.find_best_path fuel = SearchResult.exhausted) :=
  ⟨⟨by decide, by decide, by decide⟩,
    c8_day17_terminates exMapNoPath (by decide) (by decide) (by decide)⟩

/-! ## Claim C6: the priority frontier pops minimal loss, ties broken by
the taxicab value of the position -/

/-- C6: popping the `BinaryHeap` frontier under the `HeatFlow` ordering from
a non-empty pending collection always succeeds and returns a pending state
(the rest being the remaining pending states) whose loss is minimal, and
which among the equal-loss pending states carries an extremal (maximal)
taxicab value `x + y` of its position — the deterministic secondary key of
the comparison. -/
theorem c6_priority_pop (q : List HeatFlow) :
    (q ≠ [] → ∃ x rest, popMax heatCmp q = some (x, rest)) ∧
    (∀ (x : HeatFlow) (rest : List HeatFlow),
      popMax heatCmp q = some (x, rest) →
      (∀ y ∈ q, x.loss ≤ y.loss) ∧
      (∀ y ∈ q, y.loss = x.loss → y.pos.abs ≤ x.pos.abs) ∧
      q.Perm (x :: rest)) := by
  constructor
  · intro hne
    cases hp : popMax heatCmp q with
    | none => exact absurd ((popMax_eq_none_iff heatCmp q).mp hp) hne
    | some pr =>
      obtain ⟨x, rest⟩ := pr
      exact ⟨x, rest, rfl⟩
  · intro x rest hp
    refine ⟨popMax_heatCmp_loss_min hp, ?_, popMax_perm heatCmp hp⟩
    intro y hy hloss
    have := popMax_isMax heatCmp heatCmp_refl heatCmp_asymm heatCmp_trans
      hp y hy
    rw [heatCmp_ne_lt_iff] at this
    omega

/-- Two pending states with distinct losses, for the C6 witness. -/
def exFlowA : HeatFlow :=
  { loss := 5, straight := 1, pos := ⟨0, 0⟩, direction := none }

def exFlowB : HeatFlow :=
  { loss := 3, straight := 1, pos := ⟨1, 0⟩,
    direction := some Direction.East }

theorem c6_priority_pop_witness :
    (∀ y ∈ [exFlowA, exFlowB], exFlowB.loss ≤ y.loss) ∧
    (∀ y ∈ [exFlowA, exFlowB],
      y.loss = exFlowB.loss → y.pos.abs ≤ exFlowB.pos.abs) ∧
    ([exFlowA, exFlowB]).Perm (exFlowB :: [exFlowA]) :=
  (c6_priority_pop [exFlowA, exFlowB]).2 exFlowB [exFlowA] rfl

/-! ## Claim C7: the fingerprint skipper remembers exactly the fingerprints
it has been shown -/

/-- A sequence of `skip_item` calls on one `FingerprintSkipper`, threading
its state, returning the sequence of answers. -/
def runSkipper {Item FP : Type} [DecidableEq FP] (fp : Item → FP) :
    List FP → List Item → List Bool
  | _, [] => []
  | s, i :: is =>
    match fingerprintSkipItem fp s i with
    | (b, s') => b :: runSkipper fp s' is

/-- The skipper state after a sequence of `skip_item` calls. -/
def skipperStateAfter {Item FP : Type} [DecidableEq FP] (fp : Item → FP) :
    List FP → List Item → List FP
  | s, [] => s
  | s, i :: is => skipperStateAfter fp (fingerprintSkipItem fp s i).2 is

theorem mem_skipperStateAfter {Item FP : Type} [DecidableEq FP]
    (fp : Item → FP) :
    ∀ (items : List Item) (s : List FP) (g : FP),
      g ∈ skipperStateAfter fp s items ↔ g ∈ s ∨ g ∈ items.map fp := by
  intro items
  induction items with
  | nil => intro s g; simp [skipperStateAfter]
  | cons i is ih =>
    intro s g
    simp only [skipperStateAfter, List.map_cons, List.mem_cons]
    rw [ih]
    unfold fingerprintSkipItem
    by_cases hi : fp i ∈ s
    · rw [if_pos hi]
      constructor
      · intro h
        rcases h with h | h
        · exact Or.inl h
        · exact Or.inr (Or.inr h)
      · intro h
        rcases h with h | h | h
        · exact Or.inl h
        · rw [h]; exact Or.inl hi
        · exact Or.inr h
    · rw [if_neg hi]
      simp only [List.mem_cons]
      tauto

theorem runSkipper_length {Item FP : Type} [DecidableEq FP] (fp : Item → FP) :
    ∀ (items : List Item) (s : List FP),
      (runSkipper fp s items).length = items.length := by
  intro items
  induction items with
  | nil => intro s; rfl
  | cons i is ih =>
    intro s
    simp only [runSkipper, List.length_cons]
    rw [ih]

theorem runSkipper_getElem {Item FP : Type} [DecidableEq FP]
    (fp : Item → FP) :
    ∀ (items : List Item) (s : List FP) (n : Nat) (h : n < items.length),
      (runSkipper fp s items)[n]? =
        some (decide (fp (items.get ⟨n, h⟩) ∈ s ∨
          fp (items.get ⟨n, h⟩) ∈ (items.take n).map fp)) := by
  intro items
  induction items with
  | nil => intro s n h; exact absurd h (by simp)
  | cons i is ih =>
    intro s n h
    cases n with
    | zero =>
      simp only [runSkipper, fingerprintSkipItem]
      by_cases hi : fp i ∈ s
      · rw [if_pos hi]
        simp [hi]
      · rw [if_neg hi]
        simp [hi]
    | succ n =>
      have hn : n < is.length := by simpa using h
      simp only [runSkipper, fingerprintSkipItem]
      by_cases hi : fp i ∈ s
      · rw [if_pos hi]
        simp only [List.getElem?_cons_succ, List.get, List.take_succ_cons,
          List.map_cons]
        rw [ih s n hn]
        congr 1
        rw [decide_eq_decide]
        simp only [List.mem_cons]
        constructor
        · intro hh
          rcases hh with hh | hh
          · exact Or.inl hh
          · exact Or.inr (Or.inr hh)
        · intro hh
          rcases hh with hh | hh | hh
          · exact Or.inl hh
          · rw [hh]; exact Or.inl hi
          · exact Or.inr hh
      · rw [if_neg hi]
        simp only [List.getElem?_cons_succ, List.get, List.take_succ_cons,
          List.map_cons]
        rw [ih (fp i :: s) n hn]
        congr 1
        rw [decide_eq_decide]
        simp only [List.mem_cons]
        tauto

/-- C7: starting from `init` (the empty seen-set), the `n`-th `skip_item`
answer is true exactly when an earlier query carried an identical
fingerprint, and after the `n`-th call that fingerprint is in the seen-set
(so the first query of a fingerprint answers false and every later one
true). -/
theorem c7_skipper_spec {Item FP : Type} [DecidableEq FP] (fp : Item → FP)
    (items : List Item) (n : Nat) (h : n < items.length) :
    (runSkipper fp [] items)[n]? =
      some (decide (fp (items.get ⟨n, h⟩) ∈ (items.take n).map fp)) ∧
    fp (items.get ⟨n, h⟩) ∈
      skipperStateAfter fp [] (items.take (n + 1)) ∧
    (runSkipper fp [] items).length = items.length := by
  refine ⟨?_, ?_, runSkipper_length fp items []⟩
  · rw [runSkipper_getElem fp items [] n h]
    congr 1
    rw [decide_eq_decide]
    simp
  · rw [mem_skipperStateAfter]
    right
    refine List.mem_map.mpr ⟨items.get ⟨n, h⟩, ?_, rfl⟩
    have hlt : n < (items.take (n + 1)).length := by
      simp only [List.length_take]
      omega
    have : (items.take (n + 1)).get ⟨n, hlt⟩ = items.get ⟨n, h⟩ := by
      simp [List.getElem_take]
    rw [← this]
    exact List.get_mem _ _ _

/-- Three states, the first and third sharing a fingerprint, for the C7
witness. -/
def exFlowC : HeatFlow :=
  { loss := 9, straight := 1, pos := ⟨0, 0⟩, direction := none }

theorem c7_skipper_spec_witness :
    (runSkipper HeatFlow.get_fingerprint []
        [exFlowA, exFlowB, exFlowC])[2]? =
      some (decide (([exFlowA, exFlowB, exFlowC].get ⟨2, by decide⟩).get_fingerprint ∈
        ([exFlowA, exFlowB, exFlowC].take 2).map HeatFlow.get_fingerprint)) ∧
    ([exFlowA, exFlowB, exFlowC].get ⟨2, by decide⟩).get_fingerprint ∈
      skipperStateAfter HeatFlow.get_fingerprint []
        ([exFlowA, exFlowB, exFlowC].take 3) ∧
    (runSkipper HeatFlow.get_fingerprint []
      [exFlowA, exFlowB, exFlowC]).length = 3 :=
  c7_skipper_spec HeatFlow.get_fingerprint [exFlowA, exFlowB, exFlowC] 2
    (by decide)

/-! ## Claim C9: construction-time validation of the run-length constraint -/

/-- C9 (amended): `HeatChecker::new` succeeds exactly on the pairs with
`min_steps ≤ max_steps` — the assertion enforces only the ordering, and in
particular accepts `min_steps = 0`. -/
theorem c9_new_characterization (mn mx : Nat) :
    (mn ≤ mx →
      HeatChecker.new mn mx = some { min_steps := mn, max_steps := mx }) ∧
    (mx < mn → HeatChecker.new mn mx = none) := by
  constructor
  · intro hle
    unfold HeatChecker.new
    rw [if_pos hle]
  · intro hlt
    unfold HeatChecker.new
    rw [if_neg (by omega)]

theorem c9_new_characterization_witness :
    HeatChecker.new 1 3 = some { min_steps := 1, max_steps := 3 } :=
  (c9_new_characterization 1 3).1 (by decide)

/-- C9 (counterexample to the claim as stated): the pair `(0, 5)` violates
`1 ≤ min_steps` yet `HeatChecker::new` accepts it — construction does not
fail fast on it. -/
theorem c9_counterexample :
    (HeatChecker.new 0 5).isSome = true ∧ ¬ (1 ≤ 0) :=
  ⟨rfl, by decide⟩

/-! ## Claim C10: the shape of every generated successor -/

/-- The cells entered by an `n`-cell walk in direction `d` from `p`, with
the weight read at each, as validated cell by cell by the navigation
primitive. -/
def pathCells (m : List (List Nat)) (d : Direction) :
    Nat → Pos2 → Option (List (Pos2 × Nat))
  | 0, _ => some []
  | n + 1, p =>
    match safe_matrix_add_and_get p m d with
    | none => none
    | some (q, v) => (pathCells m d n q).map (fun cs => (q, v) :: cs)

theorem walkLoop_pathCells (m : List (List Nat)) (d : Direction) :
    ∀ (n : Nat) (p : Pos2) (L s : Nat) {p' : Pos2} {L' s' : Nat},
      walkLoop m d n p L s = some (p', L', s') →
      ∃ cs : List (Pos2 × Nat), pathCells m d n p = some cs ∧
        cs.length = n ∧
        L' = L + (cs.map Prod.snd).sum ∧
        s' = s + n ∧
        p' = (cs.map Prod.fst).getLastD p ∧
        ∀ c ∈ cs, cellAt m c.1 = some c.2 := by
  intro n
  induction n with
  | zero =>
    intro p L s p' L' s' h
    simp only [walkLoop, Option.some.injEq, Prod.mk.injEq] at h
    refine ⟨[], rfl, rfl, by simp [← h.2.1], by omega, by simp [h.1], by simp⟩
  | succ n ih =>
    intro p L s p' L' s' h
    simp only [walkLoop] at h
    cases hstep : safe_matrix_add_and_get p m d with
    | none => rw [hstep] at h; exact absurd h (by simp)
    | some qv =>
      obtain ⟨q, v⟩ := qv
      rw [hstep] at h
      obtain ⟨cs, hcs, hlen, hL, hs, hp, hcells⟩ := ih q (L + v) (s + 1) h
      refine ⟨(q, v) :: cs, ?_, by simp [hlen], ?_, by omega, ?_, ?_⟩
      · simp only [pathCells, hstep, hcs, Option.map_some']
      · simp only [List.map_cons, List.sum_cons]
        omega
      · simp only [List.map_cons, List.getLastD_cons]
        exact hp
      · intro c hc
        rcases List.mem_cons.mp hc with hc | hc
        · rw [hc]
          exact safe_matrix_cell hstep
        · exact hcells c hc

/-- C10: every successor has a present direction, a straight counter inside
`[min_steps, max_steps]`, and — when the constraint is valid
(`1 ≤ min_steps`) — a non-empty list of entered cells, each individually
validated in-bounds by the navigation primitive, whose weights sum to the
loss increment and whose last cell is the successor position (hence the
successor position is in-bounds). -/
theorem c10_successor_shape (m : HeatMap) (hmin : 1 ≤ m.checker.min_steps)
    (i j : HeatFlow) (hj : j ∈ m.get_next_states i) :
    ∃ (d : Direction) (cs : List (Pos2 × Nat)),
      j.direction = some d ∧
      cs ≠ [] ∧
      (∀ c ∈ cs, cellAt m.map c.1 = some c.2) ∧
      j.loss = i.loss + (cs.map Prod.snd).sum ∧
      j.pos = (cs.map Prod.fst).getLastD i.pos ∧
      InGrid m.map j.pos ∧
      m.checker.min_steps ≤ j.straight ∧
      j.straight ≤ m.checker.max_steps := by
  rw [HeatMap.get_next_states] at hj
  obtain ⟨d, _, hd⟩ := List.mem_filterMap.mp hj
  obtain ⟨s0, steps, hwalk, hdir, hchk, hcases⟩ := nextState_inversion hd
  have hchk' := of_decide_eq_true hchk
  have hsteps : 1 ≤ steps := by
    rcases hcases with ⟨prev, _, _, ⟨_, _, hst⟩ | ⟨_, _, hst⟩⟩ | ⟨_, _, hst⟩ <;>
      omega
  obtain ⟨cs, _, hlen, hL, _, hp, hcells⟩ :=
    walkLoop_pathCells m.map d steps i.pos i.loss s0 hwalk
  have hne : cs ≠ [] := by
    intro hnil
    rw [hnil] at hlen
    simp at hlen
    omega
  refine ⟨d, cs, hdir, hne, hcells, hL, hp, ?_, hchk'.1, hchk'.2⟩
  rcases walkLoop_pos_inGrid m.map d steps i.pos i.loss s0 hwalk with
    ⟨hz, _⟩ | hg
  · omega
  · exact hg

/-- The East successor of the start state of `exMap22`, for the C10
witness. -/
def exFlowEast : HeatFlow :=
  { loss := 2, straight := 1, pos := ⟨1, 0⟩,
    direction := some Direction.East }

theorem c10_successor_shape_witness :
    (1 ≤ exMap22.checker.min_steps ∧
      exFlowEast ∈ exMap22.get_next_states exMap22.get_start_item) ∧
    (∃ (d : Direction) (cs : List (Pos2 × Nat)),
      exFlowEast.direction = some d ∧
      cs ≠ [] ∧
      (∀ c ∈ cs, cellAt exMap22.map c.1 = some c.2) ∧
      exFlowEast.loss = exMap22.get_start_item.loss +
        (cs.map Prod.snd).sum ∧
      exFlowEast.pos =
        (cs.map Prod.fst).getLastD exMap22.get_start_item.pos ∧
      InGrid exMap22.map exFlowEast.pos ∧
      exMap22.checker.min_steps ≤ exFlowEast.straight ∧
      exFlowEast.straight ≤ exMap22.checker.max_steps) :=
  ⟨⟨by decide, by decide⟩,
    c10_successor_shape exMap22 (by decide) exMap22.get_start_item exFlowEast
      (by decide)⟩

/-! ## Claim C5: replayed paths respect the run-length constraints -/

/-- Taxicab distance between two grid positions. -/
def taxicabDist (a b : Pos2) : Nat :=
  Nat.dist a.x b.x + Nat.dist a.y b.y

theorem walkLoop_coords (m : List (List Nat)) (d : Direction) :
    ∀ (n : Nat) (p : Pos2) (L s : Nat) {p' : Pos2} {L' s' : Nat},
      walkLoop m d n p L s = some (p', L', s') →
      (d = Direction.East → p'.x = p.x + n ∧ p'.y = p.y) ∧
      (d = Direction.South → p'.x = p.x ∧ p'.y = p.y + n) ∧
      (d = Direction.West → p.x = p'.x + n ∧ p'.y = p.y) ∧
      (d = Direction.North → p'.x = p.x ∧ p.y = p'.y + n) := by
  intro n
  induction n with
  | zero =>
    intro p L s p' L' s' h
    simp only [walkLoop, Option.some.injEq, Prod.mk.injEq] at h
    rw [← h.1]
    exact ⟨fun _ => ⟨rfl, rfl⟩, fun _ => ⟨rfl, rfl⟩,
      fun _ => ⟨rfl, rfl⟩, fun _ => ⟨rfl, rfl⟩⟩
  | succ n ih =>
    intro p L s p' L' s' h
    simp only [walkLoop] at h
    cases hstep : safe_matrix_add_and_get p m d with
    | none => rw [hstep] at h; exact absurd h (by simp)
    | some qv =>
      obtain ⟨q, v⟩ := qv
      rw [hstep] at h
      have hco := (safe_matrix_inv hstep).2
      have hih := ih q (L + v) (s + 1) h
      refine ⟨?_, ?_, ?_, ?_⟩
      · intro hE
        subst hE
        rcases hco with ⟨_, hx, hy⟩ | ⟨hc, _⟩ | ⟨hc, _⟩ | ⟨hc, _⟩
        · have := hih.1 rfl
          omega
        all_goals simp at hc
      · intro hS
        subst hS
        rcases hco with ⟨hc, _⟩ | ⟨_, hx, hy⟩ | ⟨hc, _⟩ | ⟨hc, _⟩
        · simp at hc
        · have := hih.2.1 rfl
          omega
        all_goals simp at hc
      · intro hW
        subst hW
        rcases hco with ⟨hc, _⟩ | ⟨hc, _⟩ | ⟨_, hx, hy⟩ | ⟨hc, _⟩
        · simp at hc
        · simp at hc
        · have := hih.2.2.1 rfl
          omega
        · simp at hc
      · intro hN
        subst hN
        rcases hco with ⟨hc, _⟩ | ⟨hc, _⟩ | ⟨hc, _⟩ | ⟨_, hx, hy⟩
        · simp at hc
        · simp at hc
        · simp at hc
        · have := hih.2.2.2 rfl
          omega

theorem walkLoop_taxicab (m : List (List Nat)) (d : Direction)
    (n : Nat) (p : Pos2) (L s : Nat) {p' : Pos2} {L' s' : Nat}
    (h : walkLoop m d n p L s = some (p', L', s')) :
    taxicabDist p p' = n := by
  have hc := walkLoop_coords m d n p L s h
  unfold taxicabDist Nat.dist
  cases d with
  | East => have := hc.1 rfl; omega
  | South => have := hc.2.1 rfl; omega
  | West => have := hc.2.2.1 rfl; omega
  | North => have := hc.2.2.2 rfl; omega

/-- The individual grid moves performed by one kernel transition from state
`s` to state `t`: the taxicab displacement, each cell in the direction
recorded in `t`. -/
def transitionMoves (s t : HeatFlow) : List Direction :=
  match t.direction with
  | some d => List.replicate (taxicabDist s.pos t.pos) d
  | none => []

/-- The replayed move sequence of a whole chain of states. -/
def chainMoves : HeatFlow → List HeatFlow → List Direction
  | _, [] => []
  | s, t :: ts => transitionMoves s t ++ chainMoves t ts

/-- A chain of kernel transitions: each state is generated from its
predecessor by `get_next_states`. -/
inductive IsChain (m : HeatMap) : HeatFlow → List HeatFlow → Prop
  | nil (s : HeatFlow) : IsChain m s []
  | cons {s t : HeatFlow} {ts : List HeatFlow} :
      t ∈ m.get_next_states s → IsChain m t ts → IsChain m s (t :: ts)

/-- Modelled from the spec (claim C5, "Constraint respect"): a move sequence
respects the run-length constraints when, replayed left to right while
tracking the current direction and run length, no run of identical
directions shorter than `minS` is followed by a turn, no run exceeds
`maxS`, and no move reverses the previous direction. -/
def movesOk (minS maxS : Nat) : Option Direction → Nat → List Direction → Bool
  | _, _, [] => true
  | none, _, d :: ds => decide (1 ≤ maxS) && movesOk minS maxS (some d) 1 ds
  | some prev, run, d :: ds =>
    if d = prev then
      decide (run + 1 ≤ maxS) && movesOk minS maxS (some d) (run + 1) ds
    else
      decide (d ≠ prev.turn_back) && decide (minS ≤ run) &&
        decide (1 ≤ maxS) && movesOk minS maxS (some d) 1 ds

theorem movesOk_replicate (minS maxS : Nat) (d : Direction) :
    ∀ (k : Nat) (run : Nat) (ds : List Direction), run + k ≤ maxS →
      movesOk minS maxS (some d) run (List.replicate k d ++ ds) =
        movesOk minS maxS (some d) (run + k) ds := by
  intro k
  induction k with
  | zero => intro run ds _; simp
  | succ k ih =>
    intro run ds hk
    rw [List.replicate_succ, List.cons_append]
    simp only [movesOk, eq_self_iff_true, if_true]
    rw [decide_eq_true (by omega : run + 1 ≤ maxS), Bool.true_and]
    rw [ih (run + 1) ds (by omega)]
    rw [show run + 1 + k = run + (k + 1) from by omega]

/-- The run-tracking invariant tying a state to the checker bounds: the
start state has no direction and run 0; every other state has a straight
counter inside the legal window. -/
def GoodRun (m : HeatMap) (i : HeatFlow) : Prop :=
  (i.direction = none → i.straight = 0) ∧
  (∀ d : Direction, i.direction = some d →
    m.checker.min_steps ≤ i.straight ∧ i.straight ≤ m.checker.max_steps)

theorem transition_replay (m : HeatMap) (hmin : 1 ≤ m.checker.min_steps)
    (hmax : m.checker.min_steps ≤ m.checker.max_steps)
    {i j : HeatFlow} (hj : j ∈ m.get_next_states i) (hgood : GoodRun m i)
    (ds : List Direction) :
    movesOk m.checker.min_steps m.checker.max_steps i.direction i.straight
        (transitionMoves i j ++ ds) =
      movesOk m.checker.min_steps m.checker.max_steps j.direction j.straight
        ds ∧
    GoodRun m j := by
  rw [HeatMap.get_next_states] at hj
  obtain ⟨d, _, hd⟩ := List.mem_filterMap.mp hj
  obtain ⟨s0, steps, hwalk, hdir, hchk, hcases⟩ := nextState_inversion hd
  have hchk' := of_decide_eq_true hchk
  have hstraight := (walkLoop_spec m.map d steps i.pos i.loss s0 hwalk).2
  have htaxi := walkLoop_taxicab m.map d steps i.pos i.loss s0 hwalk
  have hmoves : transitionMoves i j = List.replicate steps d := by
    unfold transitionMoves
    rw [hdir, htaxi]
  have hgoodj : GoodRun m j := by
    constructor
    · intro hn; rw [hdir] at hn; exact absurd hn (by simp)
    · intro d0 _
      exact ⟨hchk'.1, hchk'.2⟩
  rcases hcases with ⟨prev, hiprev, hback, ⟨hsame, hs0, hsteps⟩ |
      ⟨hsame, hs0, hsteps⟩⟩ | ⟨hinone, hs0, hsteps⟩
  · -- same direction: a single further cell
    subst hsame
    rw [hmoves, hsteps, hiprev, hdir]
    rw [List.replicate_succ, List.replicate_zero, List.cons_append,
      List.nil_append]
    simp only [movesOk, eq_self_iff_true, if_true]
    have hj1 : j.straight = i.straight + 1 := by omega
    rw [hj1]
    rw [decide_eq_true (by omega : i.straight + 1 ≤ m.checker.max_steps),
      Bool.true_and]
    exact ⟨rfl, hgoodj⟩
  · -- turn: a compound move of min_steps cells
    rw [hmoves, hsteps, hiprev, hdir]
    have hrep : List.replicate m.checker.min_steps d =
        d :: List.replicate (m.checker.min_steps - 1) d := by
      conv_lhs => rw [show m.checker.min_steps =
        (m.checker.min_steps - 1) + 1 by omega]
      rw [List.replicate_succ]
    rw [hrep, List.cons_append]
    simp only [movesOk, if_neg hsame]
    have hrun := (hgood.2 prev hiprev).1
    rw [decide_eq_true hback, decide_eq_true hrun,
      decide_eq_true (by omega : 1 ≤ m.checker.max_steps)]
    simp only [Bool.true_and]
    rw [movesOk_replicate m.checker.min_steps m.checker.max_steps d
      (m.checker.min_steps - 1) 1 ds (by omega)]
    have hjs : j.straight = m.checker.min_steps := by omega
    rw [hjs]
    constructor
    · congr 1
      omega
    · exact hgoodj
  · -- very first move: a compound move of min_steps cells
    have hz : i.straight = 0 := hgood.1 hinone
    rw [hmoves, hsteps, hinone, hdir]
    have hrep : List.replicate m.checker.min_steps d =
        d :: List.replicate (m.checker.min_steps - 1) d := by
      conv_lhs => rw [show m.checker.min_steps =
        (m.checker.min_steps - 1) + 1 by omega]
      rw [List.replicate_succ]
    rw [hrep, List.cons_append]
    simp only [movesOk]
    rw [decide_eq_true (by omega : 1 ≤ m.checker.max_steps)]
    simp only [Bool.true_and]
    rw [movesOk_replicate m.checker.min_steps m.checker.max_steps d
      (m.checker.min_steps - 1) 1 ds (by omega)]
    have hjs : j.straight = m.checker.min_steps := by omega
    rw [hjs]
    constructor
    · congr 1
      omega
    · exact hgoodj

theorem chain_replay (m : HeatMap) (hmin : 1 ≤ m.checker.min_steps)
    (hmax : m.checker.min_steps ≤ m.checker.max_steps) :
    ∀ (ts : List HeatFlow) (i : HeatFlow), IsChain m i ts → GoodRun m i →
      movesOk m.checker.min_steps m.checker.max_steps i.direction i.straight
        (chainMoves i ts) = true := by
  intro ts
  induction ts with
  | nil =>
    intro i _ _
    rcases hd : i.direction with _ | d <;>
      simp [chainMoves, movesOk, hd]
  | cons t ts ih =>
    intro i hch hgood
    cases hch with
    | cons hmem hch' =>
      show movesOk m.checker.min_steps m.checker.max_steps i.direction
        i.straight (transitionMoves i t ++ chainMoves t ts) = true
      obtain ⟨heq, hgoodt⟩ :=
        transition_replay m hmin hmax hmem hgood (chainMoves t ts)
      rw [heq]
      exact ih t hch' hgoodt

/-- C5: for a valid constraint, every chain generated from the start state
replays to a move sequence in which no run of identical directions shorter
than `min_steps` is followed by a turn, no run exceeds `max_steps`, and no
move reverses the previous one; moreover, at the state level, no successor
ever carries the reverse of its parent direction. -/
theorem c5_constraint_respect (m : HeatMap) (hmin : 1 ≤ m.checker.min_steps)
    (hmax : m.checker.min_steps ≤ m.checker.max_steps)
    (ts : List HeatFlow) (hch : IsChain m m.get_start_item ts) :
    movesOk m.checker.min_steps m.checker.max_steps none 0
        (chainMoves m.get_start_item ts) = true ∧
    (∀ s t : HeatFlow, t ∈ m.get_next_states s →
      ∀ (p d : Direction), s.direction = some p → t.direction = some d →
        d ≠ p.turn_back) := by
  constructor
  · have h := chain_replay m hmin hmax ts m.get_start_item hch
      ⟨fun _ => rfl, fun d hd => absurd hd (by simp [HeatMap.get_start_item])⟩
    exact h
  · intro s t hmem p d hs ht
    rw [HeatMap.get_next_states] at hmem
    obtain ⟨d0, _, hd0⟩ := List.mem_filterMap.mp hmem
    obtain ⟨s0, steps, _, hdir, _, hcases⟩ := nextState_inversion hd0
    have hd0d : d0 = d := by
      rw [hdir] at ht
      simpa using ht
    subst hd0d
    rcases hcases with ⟨prev, hiprev, hback, _⟩ | ⟨hinone, _, _⟩
    · have : prev = p := by
        rw [hiprev] at hs
        simpa using hs
      rw [← this]
      exact hback
    · rw [hinone] at hs
      exact absurd hs (by simp)

theorem c5_constraint_respect_witness :
    (1 ≤ exMap22.checker.min_steps ∧
      exMap22.checker.min_steps ≤ exMap22.checker.max_steps ∧
      IsChain exMap22 exMap22.get_start_item [exFlowEast]) ∧
    (movesOk exMap22.checker.min_steps exMap22.checker.max_steps none 0
        (chainMoves exMap22.get_start_item [exFlowEast]) = true ∧
    (∀ s t : HeatFlow, t ∈ exMap22.get_next_states s →
      ∀ (p d : Direction), s.direction = some p → t.direction = some d →
        d ≠ p.turn_back)) :=
  ⟨⟨by decide, by decide,
      IsChain.cons (by decide) (IsChain.nil exFlowEast)⟩,
    c5_constraint_respect exMap22 (by decide) (by decide) [exFlowEast]
      (IsChain.cons (by decide) (IsChain.nil exFlowEast))⟩

end Advent2023
